import Mathlib

/-!
Shallow embedding of the `Cell` multi-tier allocator (elfenlabs/cell).

The embedding follows the release (`NDEBUG`) build on a 64-bit platform:
`sizeof(CellHeader) = 8`, `sizeof(CellMetadata) = 16`, pointers are 8 bytes.
Addresses and `size_t` values are modelled as `Nat`, reduced modulo `2^64`
exactly where the C++ arithmetic can wrap.  The reservation base address is
modelled as `0` (the base is `kCellSize`-aligned; only offsets matter).

The intrusive data structures are modelled as follows:
* a bin's partial list (`SizeBin::partial_head` plus the per-cell
  `CellMetadata::next_partial` links) is the list of cell base addresses in
  link order, head first;
* a cell's in-cell free list (`CellMetadata::free_list` plus the `next`
  word stored inside each free block) is the list of free block addresses
  in link order, head first;
* the memory contents of cells are an association list from cell base
  address to the cell's header and metadata fields.
-/

set_option maxRecDepth 20000

namespace CellAlloc

/-- Width of `size_t` / `uintptr_t` on the modelled 64-bit platform. -/
def W64 : Nat := 2 ^ 64

/-- Width of `uint16_t` (the type of `CellHeader::free_count`). -/
def W16 : Nat := 2 ^ 16

/-- Increment in `size_t` arithmetic. -/
def inc64 (x : Nat) : Nat := (x + 1) % W64

/-- Decrement in `size_t` arithmetic (wraps at zero). -/
def dec64 (x : Nat) : Nat := (x + (W64 - 1)) % W64

/-- Increment in `uint16_t` arithmetic. -/
def inc16 (x : Nat) : Nat := (x + 1) % W16

/-- Decrement in `uint16_t` arithmetic (wraps at zero). -/
def dec16 (x : Nat) : Nat := (x + (W16 - 1)) % W16

/-- Constant `kCellSizeLog2` from `config.h`: log2 of the Cell size. -/
def kCellSizeLog2 : Nat := 14

/-- Constant `kCellSize` from `config.h`: Cell size in bytes (16 KiB). -/
def kCellSize : Nat := 2 ^ kCellSizeLog2

/-- Modelled from the spec: the size-class table `kSizeClasses` lives in a
configuration header that is not under `src/`; the spec fixes the ten bins
as 16 B .. 8192 B. -/
def kSizeClasses : List Nat := [16, 32, 64, 128, 256, 512, 1024, 2048, 4096, 8192]

/-- Modelled from the spec: `kNumSizeBins`, the number of size-class bins. -/
def kNumSizeBins : Nat := 10

/-- Modelled from the spec: `kMinBlockSize`, the 16-byte floor for requests. -/
def kMinBlockSize : Nat := 16

/-- Modelled from the spec: `kFullCellMarker`, the `uint8_t` sentinel stored
in `size_class` for whole-cell allocations (`FULL_CELL`); any value distinct
from the bin indices 0..9 works, 255 is used here. -/
def kFullCellMarker : Nat := 255

/-- Modelled from the spec: `kWarmCellsPerBin`, the number of empty Cells a
bin may retain; the spec leaves the tunable value open, 2 is used here. -/
def kWarmCellsPerBin : Nat := 2

/-- Modelled from the spec: superblock size (2 MiB) carved by the Cell Pool. -/
def kSuperblockSize : Nat := 2 ^ 21

/-- Modelled from the spec: Cells per 2 MiB superblock (128). -/
def kCellsPerSuperblock : Nat := 128

/-- Modelled from the spec: capacity of one TLS bin cache. -/
def kTlsBinCacheCapacity : Nat := 16

/-- Modelled from the spec: number of TLS-cached hot bins (bins 0..3). -/
def kTlsBinCacheCount : Nat := 4

/-- Size of `CellHeader` in the release build (static_assert in `cell.h`). -/
def sizeofCellHeader : Nat := 8

/-- Size of `CellMetadata`: two 8-byte pointers (`next_partial`, `free_list`). -/
def sizeofCellMetadata : Nat := 16

/-- Function `align_up` from `sub_cell.h`: `(size + alignment - 1) & ~(alignment - 1)`
in `size_t` arithmetic.  `~(alignment - 1)` on 64 bits is `2^64 - alignment`,
and the `+ alignment - 1` is computed with unsigned wrap-around. -/
def align_up (size alignment : Nat) : Nat :=
  Nat.land ((size + alignment + (W64 - 1)) % W64) ((W64 - alignment) % W64)

/-- Constant `kBlockStartOffset` from `cell.h`: first allocatable block offset,
`align_up(sizeof(CellHeader) + sizeof(CellMetadata), 16)`. -/
def kBlockStartOffset : Nat := align_up (sizeofCellHeader + sizeofCellMetadata) 16

/-- Constant `kCellMask` from `config.h` as a 64-bit value: `~(kCellSize - 1)`. -/
def kCellMaskN : Nat := W64 - kCellSize

/-- Function `get_header` from `cell.h`: mask a pointer down to its Cell boundary. -/
def get_header (a : Nat) : Nat := Nat.land a kCellMaskN

/-- Function `blocks_per_cell` from `sub_cell.h`. -/
def blocks_per_cell (bin_index : Nat) : Nat :=
  (kCellSize - kBlockStartOffset) / kSizeClasses.getD bin_index 0

/-- The scan loop inside `get_size_class`: find the first class that is
large enough for both the adjusted size and the alignment. -/
def find_bin_loop : List Nat → Nat → Nat → Nat → Nat
  | [], _, _, _ => kFullCellMarker
  | cls :: rest, i, sz, al =>
    if sz ≤ cls ∧ al ≤ cls then i else find_bin_loop rest (i + 1) sz al

/-- Function `get_size_class` from `sub_cell.h`. -/
def get_size_class (size alignment : Nat) : Nat :=
  let sz := align_up size alignment
  let sz := if sz < kMinBlockSize then kMinBlockSize else sz
  find_bin_loop kSizeClasses 0 sz alignment

/-- The per-cell state: the `CellHeader` fields (`tag`, `size_class`,
`free_count`) together with the `CellMetadata` free-list head; the
`next_partial` link is represented by the cell's position in its bin's
partial list. -/
structure CellRec where
  tag : Nat
  size_class : Nat
  free_count : Nat
  free_list : List Nat
deriving DecidableEq, Repr, Inhabited

/-- Structure `SizeBin` from `sub_cell.h`; `partial_cells` is the intrusive partial
list (`partial_head` following `next_partial`), head first. -/
structure SizeBin where
  partial_cells : List Nat
  warm_cell_count : Nat
  total_allocated : Nat
  current_allocated : Nat
deriving DecidableEq, Repr, Inhabited

/-- A zero-initialized bin, as set up by the `Context` constructor. -/
def SizeBin.zero : SizeBin := ⟨[], 0, 0, 0⟩

/-- Modelled from the spec: the Cell Pool (`Allocator` class, not under
`src/`): a stack of free Cells plus a bump cursor that carves 2 MiB
superblocks (128 Cells) out of the reservation; when the cursor would
exceed `reserve_size` allocation fails. -/
structure PoolState where
  free_stack : List Nat
  cursor : Nat
  reserve_size : Nat
deriving DecidableEq, Repr, Inhabited

/-- Modelled from the spec: Cell Pool allocation — pop the free stack, or
carve a fresh superblock and hand out its first Cell, pushing the rest. -/
def pool_alloc (p : PoolState) : Option Nat × PoolState :=
  match p.free_stack with
  | c :: rest => (some c, { p with free_stack := rest })
  | [] =>
    if p.cursor + kSuperblockSize ≤ p.reserve_size then
      (some p.cursor,
        { free_stack :=
            (List.range (kCellsPerSuperblock - 1)).map
              (fun i => p.cursor + (i + 1) * kCellSize),
          cursor := p.cursor + kSuperblockSize,
          reserve_size := p.reserve_size })
    else (none, p)

/-- Modelled from the spec: Cell Pool free — push the Cell on the stack. -/
def pool_free (p : PoolState) (c : Nat) : PoolState :=
  { p with free_stack := c :: p.free_stack }

/-- The `Context` state: `alloc_ok` is `m_allocator != nullptr`, `cells`
the contents of all Cells carved so far, `bins` the ten `SizeBin`s. -/
structure Ctx where
  alloc_ok : Bool
  pool : PoolState
  cells : List (Nat × CellRec)
  bins : List SizeBin
deriving DecidableEq, Repr, Inhabited

/-- Reading a cell's header/metadata given its base address. -/
def find_cell : List (Nat × CellRec) → Nat → Option CellRec
  | [], _ => none
  | (b, r) :: t, a => if b = a then some r else find_cell t a

/-- Writing a cell's header/metadata at its base address. -/
def set_cell : List (Nat × CellRec) → Nat → CellRec → List (Nat × CellRec)
  | [], a, r => [(a, r)]
  | (b, s) :: t, a, r =>
    if b = a then (a, r) :: t else (b, s) :: set_cell t a r

/-- Access `m_bins[i]`. -/
def get_bin (st : Ctx) (i : Nat) : SizeBin := st.bins.getD i SizeBin.zero

/-- The `Context` constructor: `ok` records whether the virtual-memory
reservation (and hence `m_allocator`) was created; the bins are
zero-initialized either way. -/
def mk_context (ok : Bool) (reserve : Nat) : Ctx :=
  { alloc_ok := ok,
    pool := { free_stack := [], cursor := 0, reserve_size := reserve },
    cells := [],
    bins := List.replicate kNumSizeBins SizeBin.zero }

/-- Method `Context::init_cell_for_bin`: format a fresh cell for a size class and
return the written record together with the updated memory.  The free list
is threaded in reverse creation order, so the resulting list runs forward
through the cell's blocks. -/
def init_cell_for_bin (cells : List (Nat × CellRec)) (c bin_index tag : Nat) :
    CellRec × List (Nat × CellRec) :=
  let block_size := kSizeClasses.getD bin_index 0
  let num_blocks := blocks_per_cell bin_index
  let r : CellRec :=
    { tag := tag,
      size_class := bin_index,
      free_count := num_blocks % W16,
      free_list :=
        (List.range num_blocks).map (fun i => c + kBlockStartOffset + i * block_size) }
  (r, set_cell cells c r)

/-- Method `Context::alloc_from_bin`.  The third component records the mutexes
acquired during the call (`std::lock_guard` on `m_bin_locks[bin_index]`).
The two `(none, …)` fallbacks for an empty free list correspond to points
where the source asserts (a partial cell always has free blocks). -/
def alloc_from_bin (st : Ctx) (bin_index tag : Nat) : Option Nat × Ctx × List Nat :=
  let locks := [bin_index]
  let bin := get_bin st bin_index
  match bin.partial_cells with
  | c :: rest =>
    match find_cell st.cells c with
    | none => (none, st, locks)
    | some r =>
      match r.free_list with
      | [] => (none, st, locks)
      | b :: bs =>
        let cnt := dec16 r.free_count
        let cells' := set_cell st.cells c { r with free_count := cnt, free_list := bs }
        let bin' := if cnt = 0 then { bin with partial_cells := rest } else bin
        let bin'' := { bin' with
          total_allocated := inc64 bin'.total_allocated,
          current_allocated := inc64 bin'.current_allocated }
        (some b, { st with cells := cells', bins := st.bins.set bin_index bin'' }, locks)
  | [] =>
    match pool_alloc st.pool with
    | (none, p') => (none, { st with pool := p' }, locks)
    | (some c, p') =>
      let (r, cells₁) := init_cell_for_bin st.cells c bin_index tag
      match r.free_list with
      | [] => (none, { st with pool := p', cells := cells₁ }, locks)
      | b :: bs =>
        let cnt := dec16 r.free_count
        let cells₂ := set_cell cells₁ c { r with free_count := cnt, free_list := bs }
        let bin' :=
          if 0 < cnt then { bin with partial_cells := c :: bin.partial_cells } else bin
        let bin'' := { bin' with
          total_allocated := inc64 bin'.total_allocated,
          current_allocated := inc64 bin'.current_allocated }
        (some b,
          { st with pool := p', cells := cells₂, bins := st.bins.set bin_index bin'' },
          locks)

/-- A list with the first occurrence of `h` removed: the unlink loop
(`while (*pp && *pp != header) …`) in `Context::free_to_bin`. -/
def remove_cell : List Nat → Nat → List Nat
  | [], _ => []
  | c :: t, h => if c = h then t else c :: remove_cell t h

/-- Method `Context::free_to_bin`.  `p` is the freed block, `h` the cell header
address.  The `none` fallback models the raw-memory read of an unrecorded
header; the `else st` branch is the failed `assert(bin_index < kNumSizeBins)`. -/
def free_to_bin (st : Ctx) (p h : Nat) : Ctx :=
  match find_cell st.cells h with
  | none => st
  | some r =>
    let bin_index := r.size_class
    if bin_index < kNumSizeBins then
      let bin := get_bin st bin_index
      let was_full := r.free_count = 0
      let r' := { r with free_list := p :: r.free_list, free_count := inc16 r.free_count }
      let cells' := set_cell st.cells h r'
      let bin₁ := { bin with current_allocated := dec64 bin.current_allocated }
      let max_blocks := blocks_per_cell bin_index
      if r'.free_count = max_blocks then
        if bin₁.warm_cell_count < kWarmCellsPerBin then
          let bin₂ := { bin₁ with
            warm_cell_count := inc64 bin₁.warm_cell_count,
            partial_cells :=
              if was_full then h :: bin₁.partial_cells else bin₁.partial_cells }
          { st with cells := cells', bins := st.bins.set bin_index bin₂ }
        else
          let bin₂ := { bin₁ with partial_cells := remove_cell bin₁.partial_cells h }
          { st with
            cells := cells',
            bins := st.bins.set bin_index bin₂,
            pool := pool_free st.pool h }
      else if was_full then
        let bin₂ := { bin₁ with partial_cells := h :: bin₁.partial_cells }
        { st with cells := cells', bins := st.bins.set bin_index bin₂ }
      else
        { st with cells := cells', bins := st.bins.set bin_index bin₁ }
    else st

/-- Method `Context::alloc_cell`: pop a Cell from the pool and write its header
(`tag`, `size_class = kFullCellMarker`, `free_count = 0`).  The metadata
words are not written, so the modelled free list keeps its old contents. -/
def alloc_cell (st : Ctx) (tag : Nat) : Option Nat × Ctx :=
  if st.alloc_ok then
    match pool_alloc st.pool with
    | (none, p') => (none, { st with pool := p' })
    | (some c, p') =>
      let old_list := match find_cell st.cells c with
        | some r => r.free_list
        | none => []
      (some c,
        { st with
          pool := p',
          cells := set_cell st.cells c
            { tag := tag, size_class := kFullCellMarker, free_count := 0,
              free_list := old_list } })
  else (none, st)

/-- Method `Context::free_cell`: return the Cell to the pool. -/
def free_cell (st : Ctx) (c : Nat) : Ctx :=
  if st.alloc_ok then { st with pool := pool_free st.pool c } else st

/-- Method `Context::alloc_bytes`: route by `get_size_class`; the full-cell branch
repeats the `size_class = kFullCellMarker` store on the returned cell. -/
def alloc_bytes (st : Ctx) (size tag alignment : Nat) : Option Nat × Ctx :=
  if st.alloc_ok = false ∨ size = 0 then (none, st)
  else
    let bin_index := get_size_class size alignment
    if bin_index = kFullCellMarker then
      match alloc_cell st tag with
      | (none, st') => (none, st')
      | (some c, st') =>
        let cells'' := match find_cell st'.cells c with
          | some r => set_cell st'.cells c { r with size_class := kFullCellMarker }
          | none => st'.cells
        (some c, { st' with cells := cells'' })
    else
      let (r, st', _) := alloc_from_bin st bin_index tag
      (r, st')

/-- Method `Context::free_bytes`: recover the tier from the pointer alone via
`get_header` and the stored `size_class`. -/
def free_bytes (st : Ctx) (p : Option Nat) : Ctx :=
  match p with
  | none => st
  | some a =>
    let h := get_header a
    match find_cell st.cells h with
    | none => st
    | some r =>
      if r.size_class = kFullCellMarker then free_cell st h
      else free_to_bin st a h

/-- Structure `TlsBinCache` from `tls_bin_cache.h`: the fixed-size per-thread stack
of cached blocks (`blocks[kTlsBinCacheCapacity]`, `count`). -/
structure TlsBinCache where
  blocks : List Nat
  count : Nat
deriving DecidableEq, Repr, Inhabited

/-- Method `TlsBinCache::is_empty`. -/
def TlsBinCache.is_empty (s : TlsBinCache) : Bool := s.count = 0

/-- Method `TlsBinCache::is_full`. -/
def TlsBinCache.is_full (s : TlsBinCache) : Bool := kTlsBinCacheCapacity ≤ s.count

/-- Method `TlsBinCache::push`: store at index `count`, then increment. -/
def TlsBinCache.push (s : TlsBinCache) (b : Nat) : TlsBinCache :=
  { blocks := s.blocks ++ [b], count := s.count + 1 }

/-- Method `TlsBinCache::pop`: decrement `count` and return `blocks[count]`. -/
def TlsBinCache.pop (s : TlsBinCache) : Nat × TlsBinCache :=
  (s.blocks.getD (s.count - 1) 0, { s with count := s.count - 1 })

/-! ### Arithmetic facts about the 64-bit masks -/

theorem land_mask (x k : Nat) (hx : x < 2 ^ 64) (hk : k ≤ 64) :
    Nat.land x (2 ^ 64 - 2 ^ k) = 2 ^ k * (x / 2 ^ k) := by
  have hmask : 2 ^ 64 - 2 ^ k = (2 ^ (64 - k) - 1) <<< k := by
    rw [Nat.shiftLeft_eq, Nat.sub_mul, one_mul, ← Nat.pow_add]
    congr 2
    omega
  have hrhs : 2 ^ k * (x / 2 ^ k) = (x >>> k) <<< k := by
    rw [Nat.shiftRight_eq_div_pow, Nat.shiftLeft_eq, Nat.mul_comm]
  rw [hmask, hrhs]
  apply Nat.eq_of_testBit_eq
  intro i
  have hland : Nat.land x ((2 ^ (64 - k) - 1) <<< k) = x &&& ((2 ^ (64 - k) - 1) <<< k) := rfl
  rw [hland, Nat.testBit_land, Nat.testBit_shiftLeft, Nat.testBit_shiftLeft,
    Nat.testBit_shiftRight, Nat.testBit_two_pow_sub_one]
  by_cases hik : k ≤ i
  · have hsub : k + (i - k) = i := by omega
    by_cases hi64 : i < 64
    · have h1 : i - k < 64 - k := by omega
      simp [hik, hsub, h1, ge_iff_le]
    · have hbit : x.testBit i = false := by
        refine Nat.testBit_lt_two_pow (lt_of_lt_of_le hx ?_)
        exact Nat.pow_le_pow_right (by norm_num) (by omega)
      have h1 : ¬ i - k < 64 - k := by omega
      simp [hik, hsub, h1, hbit, ge_iff_le]
  · simp [hik, ge_iff_le]

theorem land_mask_sub (x k : Nat) (hx : x < 2 ^ 64) (hk : k ≤ 64) :
    Nat.land x (2 ^ 64 - 2 ^ k) = x - x % 2 ^ k := by
  rw [land_mask x k hx hk]
  have := Nat.div_add_mod x (2 ^ k)
  omega

theorem get_header_eq (a : Nat) (ha : a < W64) : get_header a = a - a % kCellSize := by
  have : get_header a = Nat.land a (2 ^ 64 - 2 ^ 14) := rfl
  rw [this, land_mask_sub a 14 ha (by omega)]
  rfl

theorem get_header_of_base {c : Nat} (hc : c % kCellSize = 0) (h : c < W64) :
    get_header c = c := by
  rw [get_header_eq c h, hc]
  omega

theorem get_header_add {c r : Nat} (hc : c % kCellSize = 0) (hr : r < kCellSize)
    (hb : c + r < W64) : get_header (c + r) = c := by
  rw [get_header_eq _ hb]
  obtain ⟨q, hq⟩ := Nat.dvd_of_mod_eq_zero hc
  have h1 : (c + r) % kCellSize = r := by
    rw [hq, Nat.mul_add_mod, Nat.mod_eq_of_lt hr]
  omega

theorem align_up_pow (s k : Nat) (hk : k < 64) (hs : s + 2 ^ k ≤ W64) :
    align_up s (2 ^ k) = 2 ^ k * ((s + 2 ^ k - 1) / 2 ^ k) := by
  have h2k : 0 < 2 ^ k := Nat.pos_pow_of_pos k (by norm_num)
  unfold align_up W64 at *
  have e1 : (s + 2 ^ k + (2 ^ 64 - 1)) % 2 ^ 64 = s + 2 ^ k - 1 := by
    have h64 : (0:Nat) < 2 ^ 64 := by positivity
    have heq : s + 2 ^ k + (2 ^ 64 - 1) = (s + 2 ^ k - 1) + 2 ^ 64 := by omega
    rw [heq, Nat.add_mod_right, Nat.mod_eq_of_lt (by omega)]
  have e2 : (2 ^ 64 - 2 ^ k) % 2 ^ 64 = 2 ^ 64 - 2 ^ k := by
    have : 2 ^ k ≤ 2 ^ 64 := Nat.pow_le_pow_right (by norm_num) (by omega)
    have h64 : (0:Nat) < 2 ^ 64 := by positivity
    exact Nat.mod_eq_of_lt (by omega)
  rw [e1, e2, land_mask _ k (by omega) (by omega)]

theorem align_up_pow_ge (s k : Nat) (hk : k < 64) (hs : s + 2 ^ k ≤ W64) :
    s ≤ align_up s (2 ^ k) := by
  rw [align_up_pow s k hk hs]
  have h2k : 0 < 2 ^ k := Nat.pos_pow_of_pos k (by norm_num)
  have hdm := Nat.div_add_mod (s + 2 ^ k - 1) (2 ^ k)
  have hm : (s + 2 ^ k - 1) % 2 ^ k < 2 ^ k := Nat.mod_lt _ h2k
  omega

theorem dec64_inc64 (x : Nat) (hx : x < W64) : dec64 (inc64 x) = x := by
  unfold dec64 inc64 W64 at *
  have h64 : (0:Nat) < 2 ^ 64 := by positivity
  rcases Nat.lt_or_ge (x + 1) (2 ^ 64) with h | h
  · rw [Nat.mod_eq_of_lt h]
    have : x + 1 + (2 ^ 64 - 1) = x + 2 ^ 64 := by omega
    rw [this, Nat.add_mod_right, Nat.mod_eq_of_lt hx]
  · have hx1 : x + 1 = 2 ^ 64 := by omega
    rw [hx1, Nat.mod_self, Nat.zero_add, Nat.mod_eq_of_lt (by omega)]
    omega

theorem inc64_lt (x : Nat) : inc64 x < W64 := by
  unfold inc64 W64
  exact Nat.mod_lt _ (by positivity)

theorem dec64_lt (x : Nat) : dec64 x < W64 := by
  unfold dec64 W64
  exact Nat.mod_lt _ (by positivity)

theorem inc16_small {x : Nat} (hx : x + 1 < W16) : inc16 x = x + 1 := by
  unfold inc16
  exact Nat.mod_eq_of_lt hx

theorem dec16_small {x : Nat} (h1 : 1 ≤ x) (hx : x < W16) : dec16 x = x - 1 := by
  unfold dec16 W16 at *
  have : x + (2 ^ 16 - 1) = (x - 1) + 2 ^ 16 := by omega
  rw [this, Nat.add_mod_right, Nat.mod_eq_of_lt (by omega)]

/-! ### Lemmas about the cell memory association list -/

theorem find_cell_set_self (cells : List (Nat × CellRec)) (a : Nat) (r : CellRec) :
    find_cell (set_cell cells a r) a = some r := by
  induction cells with
  | nil => simp [set_cell, find_cell]
  | cons e t ih =>
    obtain ⟨b, s⟩ := e
    by_cases hba : b = a
    · simp [set_cell, hba, find_cell]
    · simp [set_cell, hba, find_cell, ih]

theorem find_cell_set_ne (cells : List (Nat × CellRec)) (a x : Nat) (r : CellRec)
    (h : x ≠ a) : find_cell (set_cell cells a r) x = find_cell cells x := by
  induction cells with
  | nil => simp [set_cell, find_cell, Ne.symm h]
  | cons e t ih =>
    obtain ⟨b, s⟩ := e
    by_cases hba : b = a
    · subst hba
      simp [set_cell, find_cell, Ne.symm h]
    · by_cases hbx : b = x
      · subst hbx
        simp [set_cell, hba, find_cell]
      · simp [set_cell, hba, find_cell, hbx, ih]

theorem mem_set_cell {cells : List (Nat × CellRec)} {a : Nat} {r : CellRec}
    {e : Nat × CellRec} (h : e ∈ set_cell cells a r) : e = (a, r) ∨ e ∈ cells := by
  induction cells with
  | nil => simpa [set_cell] using h
  | cons f t ih =>
    obtain ⟨b, s⟩ := f
    by_cases hba : b = a
    · simp [set_cell, hba] at h
      rcases h with h | h
      · exact Or.inl h
      · exact Or.inr (by simp [h])
    · simp [set_cell, hba] at h
      rcases h with h | h
      · exact Or.inr (by simp [h])
      · rcases ih h with h' | h'
        · exact Or.inl h'
        · exact Or.inr (by simp [h'])

theorem find_cell_mem {cells : List (Nat × CellRec)} {a : Nat} {r : CellRec}
    (h : find_cell cells a = some r) : (a, r) ∈ cells := by
  induction cells with
  | nil => simp [find_cell] at h
  | cons e t ih =>
    obtain ⟨b, s⟩ := e
    by_cases hba : b = a
    · subst hba
      simp [find_cell] at h
      simp [h]
    · simp [find_cell, hba] at h
      simp [ih h]

theorem keys_set_cell_sub (cells : List (Nat × CellRec)) (a : Nat) (r : CellRec) :
    ∀ x ∈ (set_cell cells a r).map Prod.fst, x = a ∨ x ∈ cells.map Prod.fst := by
  intro x hx
  obtain ⟨e, he, hex⟩ := List.mem_map.mp hx
  rcases mem_set_cell he with h | h
  · left
    rw [← hex, h]
  · right
    exact List.mem_map.mpr ⟨e, h, hex⟩

theorem keys_nodup_set_cell {cells : List (Nat × CellRec)} (a : Nat) (r : CellRec)
    (h : (cells.map Prod.fst).Nodup) : ((set_cell cells a r).map Prod.fst).Nodup := by
  induction cells with
  | nil => simp [set_cell]
  | cons e t ih =>
    obtain ⟨b, s⟩ := e
    rw [List.map_cons, List.nodup_cons] at h
    by_cases hba : b = a
    · subst hba
      rw [show set_cell ((b, s) :: t) b r = (b, r) :: t from by simp [set_cell]]
      rw [List.map_cons, List.nodup_cons]
      exact h
    · rw [show set_cell ((b, s) :: t) a r = (b, s) :: set_cell t a r from by
        simp [set_cell, hba]]
      rw [List.map_cons, List.nodup_cons]
      refine ⟨fun hmem => ?_, ih h.2⟩
      rcases keys_set_cell_sub t a r b hmem with h' | h'
      · exact hba h'
      · exact h.1 h'

theorem find_cell_eq_none {cells : List (Nat × CellRec)} {a : Nat}
    (h : ∀ e ∈ cells, e.1 ≠ a) : find_cell cells a = none := by
  induction cells with
  | nil => rfl
  | cons e t ih =>
    obtain ⟨b, s⟩ := e
    have hb : b ≠ a := h (b, s) (by simp)
    simp [find_cell, hb]
    exact ih fun e he => h e (by simp [he])

theorem set_cell_of_find_self {cells : List (Nat × CellRec)} {a : Nat} {r : CellRec}
    (h : find_cell cells a = some r) : set_cell cells a r = cells := by
  induction cells with
  | nil => simp [find_cell] at h
  | cons e t ih =>
    obtain ⟨b, s⟩ := e
    by_cases hba : b = a
    · subst hba
      simp [find_cell] at h
      simp [set_cell, h]
    · simp [find_cell, hba] at h
      simp [set_cell, hba, ih h]

/-! ### Lemmas about `remove_cell` -/

theorem mem_remove_cell {l : List Nat} {h x : Nat} (hx : x ∈ remove_cell l h) : x ∈ l := by
  induction l with
  | nil => simp [remove_cell] at hx
  | cons c t ih =>
    by_cases hch : c = h
    · simp [remove_cell, hch] at hx
      simp [hx]
    · simp [remove_cell, hch] at hx
      rcases hx with hx | hx
      · simp [hx]
      · simp [ih hx]

theorem nodup_remove_cell {l : List Nat} (h : Nat) (hl : l.Nodup) :
    (remove_cell l h).Nodup := by
  induction l with
  | nil => simp [remove_cell]
  | cons c t ih =>
    simp at hl
    by_cases hch : c = h
    · simpa [remove_cell, hch] using hl.2
    · simp [remove_cell, hch]
      exact ⟨fun hmem => hl.1 (mem_remove_cell hmem), ih hl.2⟩

theorem not_mem_remove_cell {l : List Nat} {h : Nat} (hl : l.Nodup) :
    h ∉ remove_cell l h := by
  induction l with
  | nil => simp [remove_cell]
  | cons c t ih =>
    simp at hl
    by_cases hch : c = h
    · subst hch
      simpa [remove_cell] using hl.1
    · simp [remove_cell, hch]
      exact ⟨fun he => hch he.symm, ih hl.2⟩

/-! ### Lemmas about bin list access -/

theorem getD_set_self (l : List SizeBin) (i : Nat) (b d : SizeBin) (h : i < l.length) :
    (l.set i b).getD i d = b := by
  rw [List.getD_eq_getElem?_getD, List.getElem?_set_self h]
  rfl

theorem getD_set_ne (l : List SizeBin) (i j : Nat) (b d : SizeBin) (h : j ≠ i) :
    (l.set i b).getD j d = l.getD j d := by
  rw [List.getD_eq_getElem?_getD, List.getElem?_set_ne (fun he => h he.symm),
    ← List.getD_eq_getElem?_getD]

/-! ### Valid block addresses of a size-class cell -/

/-- The addresses of the blocks a cell dedicated to class `cls` is carved
into: `c + kBlockStartOffset + i * class_size` for `i < blocks_per_cell`. -/
def block_addrs (c cls : Nat) : List Nat :=
  (List.range (blocks_per_cell cls)).map
    (fun i => c + kBlockStartOffset + i * kSizeClasses.getD cls 0)

theorem class_size_pos {cls : Nat} (h : cls < kNumSizeBins) :
    0 < kSizeClasses.getD cls 0 := by
  have : ∀ c ∈ List.range kNumSizeBins, 0 < kSizeClasses.getD c 0 := by decide
  exact this cls (List.mem_range.mpr h)

theorem blocks_per_cell_pos {cls : Nat} (h : cls < kNumSizeBins) :
    1 ≤ blocks_per_cell cls := by
  have : ∀ c ∈ List.range kNumSizeBins, 1 ≤ blocks_per_cell c := by decide
  exact this cls (List.mem_range.mpr h)

theorem blocks_per_cell_lt {cls : Nat} (h : cls < kNumSizeBins) :
    blocks_per_cell cls < W16 - 1 := by
  have : ∀ c ∈ List.range kNumSizeBins, blocks_per_cell c < W16 - 1 := by decide
  exact this cls (List.mem_range.mpr h)

theorem mem_block_addrs {a c cls : Nat} :
    a ∈ block_addrs c cls ↔
      ∃ i, i < blocks_per_cell cls ∧
        a = c + kBlockStartOffset + i * kSizeClasses.getD cls 0 := by
  unfold block_addrs
  simp [List.mem_map, List.mem_range, eq_comm]

theorem block_addrs_nodup {c cls : Nat} (h : cls < kNumSizeBins) :
    (block_addrs c cls).Nodup := by
  unfold block_addrs
  refine List.Nodup.map ?_ (List.nodup_range _)
  intro i j hij
  have hs := class_size_pos h
  exact Nat.eq_of_mul_eq_mul_right hs (Nat.add_left_cancel hij)

theorem block_addrs_offset {a c cls : Nat} (hcls : cls < kNumSizeBins)
    (ha : a ∈ block_addrs c cls) :
    c ≤ a ∧ a < c + kCellSize ∧ kBlockStartOffset ≤ a - c := by
  obtain ⟨i, hi, he⟩ := mem_block_addrs.mp ha
  have hs := class_size_pos hcls
  have hoff : kBlockStartOffset + blocks_per_cell cls * kSizeClasses.getD cls 0 ≤ kCellSize := by
    unfold blocks_per_cell
    have h1 : (kCellSize - kBlockStartOffset) / kSizeClasses.getD cls 0 *
        kSizeClasses.getD cls 0 ≤ kCellSize - kBlockStartOffset :=
      Nat.div_mul_le_self _ _
    have h2 : kBlockStartOffset ≤ kCellSize := by decide
    omega
  have hlt : kBlockStartOffset + i * kSizeClasses.getD cls 0 < kCellSize := by
    have : (i + 1) * kSizeClasses.getD cls 0 ≤ blocks_per_cell cls * kSizeClasses.getD cls 0 :=
      Nat.mul_le_mul_right _ (by omega)
    have h3 : i * kSizeClasses.getD cls 0 + kSizeClasses.getD cls 0 =
        (i + 1) * kSizeClasses.getD cls 0 := by ring
    omega
  omega

/-! ### Well-formedness of the allocator state

`state_wf` is the inductive strengthening of the bin invariant: it ties the
partial lists, the per-cell free lists and the Cell Pool together tightly
enough to be preserved by every operation.  All components are decidable so
that concrete states can be checked by evaluation. -/

/-- Well-formedness of one recorded cell: it is `kCellSize`-aligned, lies
below the pool cursor, and, when dedicated to a size class, its
`free_count` agrees with its free list, whose entries are distinct valid
block addresses of the cell. -/
def cell_wf (cursor : Nat) (e : Nat × CellRec) : Prop :=
  e.1 % kCellSize = 0 ∧ e.1 + kCellSize ≤ cursor ∧
  (e.2.size_class < kNumSizeBins →
    (e.2.free_count = e.2.free_list.length ∧
     e.2.free_list.length ≤ blocks_per_cell e.2.size_class ∧
     e.2.free_list.Nodup ∧
     ∀ a ∈ e.2.free_list, a ∈ block_addrs e.1 e.2.size_class))

/-- A cell linked into bin `i`'s partial list is recorded, dedicated to
class `i`, and has at least one free block. -/
def partial_cell_ok (st : Ctx) (i c : Nat) : Prop :=
  ((find_cell st.cells c).map CellRec.size_class = some i) ∧
  1 ≤ ((find_cell st.cells c).map CellRec.free_count).getD 0

/-- Well-formedness of one bin. -/
def bin_wf (st : Ctx) (i : Nat) : Prop :=
  (get_bin st i).partial_cells.Nodup ∧
  (get_bin st i).warm_cell_count ≤ kWarmCellsPerBin ∧
  (get_bin st i).total_allocated < W64 ∧
  (get_bin st i).current_allocated < W64 ∧
  ∀ c ∈ (get_bin st i).partial_cells, partial_cell_ok st i c

/-- Well-formedness of the Cell Pool: aligned cursor inside the
reservation, and a duplicate-free stack of aligned, already-carved Cells
none of which is linked into a partial list. -/
def pool_wf (st : Ctx) : Prop :=
  st.pool.cursor % kCellSize = 0 ∧
  st.pool.cursor ≤ st.pool.reserve_size ∧
  st.pool.reserve_size ≤ W64 ∧
  st.pool.free_stack.Nodup ∧
  ∀ c ∈ st.pool.free_stack,
    c % kCellSize = 0 ∧ c + kCellSize ≤ st.pool.cursor ∧
    ∀ i ∈ List.range kNumSizeBins, c ∉ (get_bin st i).partial_cells

/-- Full well-formedness of a `Ctx`. -/
def state_wf (st : Ctx) : Prop :=
  st.bins.length = kNumSizeBins ∧
  (st.cells.map Prod.fst).Nodup ∧
  (∀ e ∈ st.cells, cell_wf st.pool.cursor e) ∧
  (∀ i ∈ List.range kNumSizeBins, bin_wf st i) ∧
  pool_wf st

/-- The bin invariant as stated in the claim: every cell reachable from a
bin's partial list head has that bin's `size_class`, a positive
`free_count`, and a `free_count` equal to the node count of its free list. -/
def bins_invariant (st : Ctx) : Prop :=
  ∀ i ∈ List.range kNumSizeBins, ∀ c ∈ (get_bin st i).partial_cells,
    ((find_cell st.cells c).map CellRec.size_class = some i) ∧
    1 ≤ ((find_cell st.cells c).map CellRec.free_count).getD 0 ∧
    ((find_cell st.cells c).map CellRec.free_count).getD 0 =
      ((find_cell st.cells c).map (fun r => r.free_list.length)).getD 0

/-- Validity of a `free_to_bin(p, h)` call on a recorded size-class cell:
`p` is one of the cell's block addresses, it is not already free, the cell
has at least one allocated block, and the cell is not sitting in the Cell
Pool's free stack.  This is the caller obligation the source expresses as
undefined behaviour (double free, foreign pointer). -/
def valid_free (st : Ctx) (p h : Nat) : Prop :=
  (find_cell st.cells h).isSome = true →
    ((find_cell st.cells h).getD default).size_class < kNumSizeBins →
      (p ∈ block_addrs h ((find_cell st.cells h).getD default).size_class ∧
       p ∉ ((find_cell st.cells h).getD default).free_list ∧
       ((find_cell st.cells h).getD default).free_list.length <
         blocks_per_cell ((find_cell st.cells h).getD default).size_class ∧
       h ∉ st.pool.free_stack)

attribute [reducible] cell_wf partial_cell_ok bin_wf pool_wf state_wf bins_invariant valid_free

theorem state_wf_bins_invariant {st : Ctx} (hwf : state_wf st) : bins_invariant st := by
  obtain ⟨hlen, hnd, hcells, hbins, hpool⟩ := hwf
  intro i hi c hc
  obtain ⟨hok1, hok2⟩ := (hbins i hi).2.2.2.2 c hc
  rcases hfind : find_cell st.cells c with _ | r
  · rw [hfind] at hok1
    simp at hok1
  · rw [hfind] at hok1 hok2
    simp at hok1 hok2
    have hmem := find_cell_mem hfind
    have hcw := hcells _ hmem
    have hcnt := (hcw.2.2 (by rw [hok1]; exact List.mem_range.mp hi)).1
    exact ⟨by simp [hok1], by simpa using hok2, by simpa using hcnt⟩

/-- Unpack the facts about the head cell of a partial list. -/
theorem wf_partial_rec {st : Ctx} (hwf : state_wf st) {i c : Nat}
    (hi : i < kNumSizeBins) (hc : c ∈ (get_bin st i).partial_cells) :
    ∃ r, find_cell st.cells c = some r ∧ r.size_class = i ∧ 1 ≤ r.free_count ∧
      cell_wf st.pool.cursor (c, r) := by
  obtain ⟨hlen, hnd, hcells, hbins, hpool⟩ := hwf
  obtain ⟨hok1, hok2⟩ := (hbins i (List.mem_range.mpr hi)).2.2.2.2 c hc
  rcases hfind : find_cell st.cells c with _ | r
  · rw [hfind] at hok1
    simp at hok1
  · rw [hfind] at hok1 hok2
    simp at hok1 hok2
    exact ⟨r, rfl, hok1, hok2, hcells _ (find_cell_mem hfind)⟩

theorem partial_below_cursor {st : Ctx} (hwf : state_wf st) {i y : Nat}
    (hi : i < kNumSizeBins) (hy : y ∈ (get_bin st i).partial_cells) :
    y + kCellSize ≤ st.pool.cursor := by
  obtain ⟨r, _, _, _, hcw⟩ := wf_partial_rec hwf hi hy
  exact hcw.2.1

/-- Everything a successful Cell Pool allocation guarantees on a
well-formed state. -/
theorem pool_alloc_spec {st : Ctx} {c : Nat} {p' : PoolState} (hwf : state_wf st)
    (h : pool_alloc st.pool = (some c, p')) :
    c % kCellSize = 0 ∧ c + kCellSize ≤ p'.cursor ∧
    p'.cursor % kCellSize = 0 ∧ p'.cursor ≤ p'.reserve_size ∧
    p'.reserve_size = st.pool.reserve_size ∧
    st.pool.cursor ≤ p'.cursor ∧
    p'.free_stack.Nodup ∧ c ∉ p'.free_stack ∧
    (∀ x ∈ p'.free_stack, x % kCellSize = 0 ∧ x + kCellSize ≤ p'.cursor ∧
      ∀ i ∈ List.range kNumSizeBins, x ∉ (get_bin st i).partial_cells) ∧
    (∀ i ∈ List.range kNumSizeBins, c ∉ (get_bin st i).partial_cells) ∧
    (∀ e ∈ st.cells, e.1 + kCellSize ≤ p'.cursor) := by
  have hcells := hwf.2.2.1
  obtain ⟨hpc, hcr, hrw, hnd, hstk⟩ := hwf.2.2.2.2
  have hcs : kCellSize = 16384 := by decide
  have hsb : kSuperblockSize = 2097152 := by decide
  have hcps : kCellsPerSuperblock = 128 := by decide
  unfold pool_alloc at h
  rcases hfs : st.pool.free_stack with _ | ⟨c0, rest⟩
  · rw [hfs] at h
    by_cases hguard : st.pool.cursor + kSuperblockSize ≤ st.pool.reserve_size
    · rw [if_pos hguard] at h
      simp only [Prod.mk.injEq, Option.some.injEq] at h
      obtain ⟨hc, hp⟩ := h
      subst hc
      subst hp
      have hnot_partial : ∀ i ∈ List.range kNumSizeBins,
          st.pool.cursor ∉ (get_bin st i).partial_cells := by
        intro i hi hmem
        have := partial_below_cursor hwf (List.mem_range.mp hi) hmem
        omega
      refine ⟨hpc, ?_, ?_, ?_, rfl, ?_, ?_, ?_, ?_, hnot_partial, ?_⟩
      · simp only [hcs, hsb] at *
        omega
      · simp only [hcs, hsb] at *
        omega
      · simp only
        omega
      · simp only [hsb]
        omega
      · simp only
        refine List.Nodup.map ?_ (List.nodup_range _)
        intro i j hij
        dsimp only at hij
        simp only [hcs] at hij
        have hij' := Nat.add_left_cancel hij
        omega
      · simp only [List.mem_map, List.mem_range]
        rintro ⟨i, hi, hie⟩
        simp only [hcs] at hie
        omega
      · simp only [List.mem_map, List.mem_range]
        rintro x ⟨i, hi, hie⟩
        simp only [hcs, hcps] at hie hi
        refine ⟨?_, ?_, ?_⟩
        · simp only [hcs] at hpc ⊢
          omega
        · simp only [hcs, hsb]
          omega
        · intro j hj hmem
          have hb := partial_below_cursor hwf hj hmem
          simp only [hcs, hsb] at hb ⊢
          omega
      · intro e he
        have := (hcells e he).2.1
        simp only [hcs, hsb] at this ⊢
        omega
    · rw [if_neg hguard] at h
      simp at h
  · rw [hfs] at h
    simp only [Prod.mk.injEq, Option.some.injEq] at h
    obtain ⟨hc, hp⟩ := h
    subst hc
    subst hp
    have hmemc : c0 ∈ st.pool.free_stack := by rw [hfs]; simp
    obtain ⟨hal, hbd, hnp⟩ := hstk c0 hmemc
    rw [hfs] at hnd
    rw [List.nodup_cons] at hnd
    refine ⟨hal, hbd, hpc, hcr, rfl, le_refl _, hnd.2, hnd.1, ?_, hnp, ?_⟩
    · intro x hx
      exact hstk x (by rw [hfs]; simp [hx])
    · intro e he
      exact (hcells e he).2.1

theorem cell_not_in_other_partial {st : Ctx} (hwf : state_wf st) {h : Nat} {r : CellRec}
    (hfind : find_cell st.cells h = some r) :
    ∀ i ∈ List.range kNumSizeBins, r.size_class ≠ i → h ∉ (get_bin st i).partial_cells := by
  intro i hi hne hmem
  obtain ⟨r', hf', hcl', _, _⟩ := wf_partial_rec hwf (List.mem_range.mp hi) hmem
  rw [hfind] at hf'
  injection hf' with hrr
  exact hne (hrr ▸ hcl')

/-- Rebuild `state_wf` for a state that differs from a well-formed `st` by
one cell record (at `c`) and one bin (at `bin_index`).  This shape covers
the results of `alloc_from_bin`, `free_to_bin` and `init_cell_for_bin`. -/
theorem state_wf_assemble {st : Ctx} (hwf : state_wf st) {bin_index : Nat}
    (hbin : bin_index < kNumSizeBins)
    {A : Bool} {P : PoolState} {C : List (Nat × CellRec)} {nb : SizeBin} {c : Nat}
    {r₁ : CellRec}
    (hPc : P.cursor % kCellSize = 0) (hPr : P.cursor ≤ P.reserve_size)
    (hPw : P.reserve_size ≤ W64)
    (hPnd : P.free_stack.Nodup)
    (hPstk : ∀ x ∈ P.free_stack, x % kCellSize = 0 ∧ x + kCellSize ≤ P.cursor ∧
      (∀ i ∈ List.range kNumSizeBins, i ≠ bin_index → x ∉ (get_bin st i).partial_cells) ∧
      x ∉ nb.partial_cells)
    (hCfind : ∀ x, x ≠ c → find_cell C x = find_cell st.cells x)
    (hCkeys : (C.map Prod.fst).Nodup)
    (hCwf : ∀ e ∈ C, cell_wf P.cursor e)
    (hr₁ : find_cell C c = some r₁)
    (hr₁cls : r₁.size_class = bin_index)
    (hother : ∀ i ∈ List.range kNumSizeBins, i ≠ bin_index →
      c ∉ (get_bin st i).partial_cells)
    (hnb_nodup : nb.partial_cells.Nodup)
    (hnb_sub : ∀ x ∈ nb.partial_cells, x = c ∨ x ∈ (get_bin st bin_index).partial_cells)
    (hcin : c ∈ nb.partial_cells → 1 ≤ r₁.free_count)
    (hnb_warm : nb.warm_cell_count ≤ kWarmCellsPerBin)
    (hnb_tot : nb.total_allocated < W64) (hnb_cur : nb.current_allocated < W64) :
    state_wf { alloc_ok := A, pool := P, cells := C, bins := st.bins.set bin_index nb } := by
  have hlen := hwf.1
  have hbins := hwf.2.2.2.1
  set st₁ : Ctx := { alloc_ok := A, pool := P, cells := C, bins := st.bins.set bin_index nb }
    with hst₁
  have hget_bin_eq : get_bin st₁ bin_index = nb := by
    unfold get_bin
    rw [hst₁]
    exact getD_set_self st.bins bin_index nb SizeBin.zero (by omega)
  have hget_bin_ne : ∀ j, j ≠ bin_index → get_bin st₁ j = get_bin st j := by
    intro j hj
    unfold get_bin
    rw [hst₁]
    exact getD_set_ne st.bins bin_index j nb SizeBin.zero hj
  refine ⟨?_, hCkeys, hCwf, ?_, ?_⟩
  · rw [hst₁]
    simpa using hlen
  · intro i hi
    by_cases hieq : i = bin_index
    · subst hieq
      unfold bin_wf
      rw [hget_bin_eq]
      refine ⟨hnb_nodup, hnb_warm, hnb_tot, hnb_cur, ?_⟩
      intro x hx
      by_cases hxc : x = c
      · subst hxc
        unfold partial_cell_ok
        rw [show st₁.cells = C from rfl, hr₁]
        simp [hr₁cls, hcin hx]
      · rcases hnb_sub x hx with h' | h'
        · exact absurd h' hxc
        · have hok := (hbins i hi).2.2.2.2 x h'
          unfold partial_cell_ok at hok ⊢
          rw [show st₁.cells = C from rfl, hCfind x hxc]
          exact hok
    · unfold bin_wf
      rw [hget_bin_ne i hieq]
      have hbw := hbins i hi
      refine ⟨hbw.1, hbw.2.1, hbw.2.2.1, hbw.2.2.2.1, ?_⟩
      intro x hx
      have hxc : x ≠ c := by
        intro he
        exact hother i hi hieq (he ▸ hx)
      have hok := hbw.2.2.2.2 x hx
      unfold partial_cell_ok at hok ⊢
      rw [show st₁.cells = C from rfl, hCfind x hxc]
      exact hok
  · refine ⟨hPc, hPr, hPw, hPnd, ?_⟩
    intro x hx
    obtain ⟨h1, h2, h3, h4⟩ := hPstk x hx
    refine ⟨h1, h2, ?_⟩
    intro i hi
    by_cases hieq : i = bin_index
    · subst hieq
      rw [hget_bin_eq]
      exact h4
    · rw [hget_bin_ne i hieq]
      exact h3 i hi hieq

theorem alloc_from_bin_spec {st st₁ : Ctx} {bin_index tag p : Nat} {lks : List Nat}
    (hwf : state_wf st) (hbin : bin_index < kNumSizeBins)
    (h : alloc_from_bin st bin_index tag = (some p, st₁, lks)) :
    ∃ c r₁,
      c % kCellSize = 0 ∧ c + kCellSize ≤ st₁.pool.cursor ∧
      find_cell st₁.cells c = some r₁ ∧
      r₁.size_class = bin_index ∧
      r₁.free_count = r₁.free_list.length ∧
      r₁.free_list.length < blocks_per_cell bin_index ∧
      p ∈ block_addrs c bin_index ∧
      p ∉ r₁.free_list ∧
      c ∉ st₁.pool.free_stack ∧
      state_wf st₁ ∧
      st₁.alloc_ok = st.alloc_ok ∧
      st₁.pool.reserve_size = st.pool.reserve_size ∧
      (∀ j, j ≠ bin_index → get_bin st₁ j = get_bin st j) ∧
      (get_bin st₁ bin_index).current_allocated =
        inc64 ((get_bin st bin_index).current_allocated) ∧
      (get_bin st₁ bin_index).warm_cell_count = (get_bin st bin_index).warm_cell_count := by
  have hlen := hwf.1
  have hkeys := hwf.2.1
  have hcellswf := hwf.2.2.1
  have hbins := hwf.2.2.2.1
  have hpool := hwf.2.2.2.2
  obtain ⟨hpc, hcr, hrw, hpnd, hstk⟩ := hpool
  simp only [alloc_from_bin] at h
  rcases hpart : (get_bin st bin_index).partial_cells with _ | ⟨c, rest⟩
  · rw [hpart] at h
    dsimp only at h
    rcases hpa : pool_alloc st.pool with ⟨oc, p'⟩
    rw [hpa] at h
    rcases oc with _ | c
    · dsimp only at h
      simp at h
    · dsimp only at h
      simp only [init_cell_for_bin] at h
      obtain ⟨hal, hbd, hpc', hpr', hres', hmono, hnd', hcstk', hstk', hnp', hcellsbd⟩ :=
        pool_alloc_spec hwf hpa
      have hn1 : 1 ≤ blocks_per_cell bin_index := blocks_per_cell_pos hbin
      have hmax16 := blocks_per_cell_lt hbin
      have hs := class_size_pos hbin
      have hrange : List.range (blocks_per_cell bin_index) =
          0 :: (List.range (blocks_per_cell bin_index - 1)).map Nat.succ := by
        conv_lhs => rw [show blocks_per_cell bin_index =
          (blocks_per_cell bin_index - 1) + 1 from by omega]
        rw [List.range_succ_eq_map]
      rw [hrange] at h
      simp only [List.map_cons, List.map_map, Nat.zero_mul, Nat.add_zero] at h
      simp only [Prod.mk.injEq, Option.some.injEq] at h
      obtain ⟨hpb, hstq, hlk⟩ := h
      subst hpb
      subst hstq
      subst hlk
      have hnW : blocks_per_cell bin_index % W16 = blocks_per_cell bin_index :=
        Nat.mod_eq_of_lt (by omega)
      have hdec : dec16 (blocks_per_cell bin_index % W16) = blocks_per_cell bin_index - 1 := by
        rw [hnW]
        exact dec16_small hn1 (by omega)
      have hblk : block_addrs c bin_index =
          (c + kBlockStartOffset) ::
            (List.range (blocks_per_cell bin_index - 1)).map
              ((fun i => c + kBlockStartOffset + i * kSizeClasses.getD bin_index 0) ∘
                Nat.succ) := by
        unfold block_addrs
        rw [hrange]
        simp only [List.map_cons, List.map_map, Nat.zero_mul, Nat.add_zero]
      have hlenbs : ((List.range (blocks_per_cell bin_index - 1)).map
          ((fun i => c + kBlockStartOffset + i * kSizeClasses.getD bin_index 0) ∘
            Nat.succ)).length = blocks_per_cell bin_index - 1 := by
        simp
      have hndall : (block_addrs c bin_index).Nodup := block_addrs_nodup hbin
      rw [hblk] at hndall
      obtain ⟨hheadnm, hndbs⟩ := List.nodup_cons.mp hndall
      have hmemblk : ∀ a, a ∈ block_addrs c bin_index ↔
          (a = c + kBlockStartOffset ∨
           a ∈ (List.range (blocks_per_cell bin_index - 1)).map
             ((fun i => c + kBlockStartOffset + i * kSizeClasses.getD bin_index 0) ∘
               Nat.succ)) := by
        intro a
        rw [hblk]
        simp
      refine ⟨c, ⟨tag, bin_index, dec16 (blocks_per_cell bin_index % W16),
        (List.range (blocks_per_cell bin_index - 1)).map
          ((fun i => c + kBlockStartOffset + i * kSizeClasses.getD bin_index 0) ∘
            Nat.succ)⟩,
        hal, hbd, find_cell_set_self _ _ _, rfl, ?_, ?_, ?_, ?_, hcstk', ?_, rfl, hres',
        ?_, ?_, ?_⟩
      · show dec16 (blocks_per_cell bin_index % W16) = _
        rw [hdec, hlenbs]
      · show _ < blocks_per_cell bin_index
        rw [hlenbs]
        omega
      · exact (hmemblk _).mpr (Or.inl rfl)
      · show c + kBlockStartOffset ∉ _
        exact hheadnm
      · -- state_wf of the new state
        refine state_wf_assemble hwf hbin hpc' hpr' (by rw [hres']; exact hrw) hnd'
          ?_ ?_ ?_ ?_ (find_cell_set_self _ _ _) rfl ?_ ?_ ?_ ?_ ?_ ?_ ?_
        · intro x hx
          obtain ⟨h1, h2, h3⟩ := hstk' x hx
          refine ⟨h1, h2, fun i hi _ => h3 i hi, ?_⟩
          have hxc : x ≠ c := fun he => hcstk' (he ▸ hx)
          have hxpart := h3 bin_index (List.mem_range.mpr hbin)
          by_cases hz : 0 < dec16 (blocks_per_cell bin_index % W16)
          · rw [if_pos hz]
            intro hmem
            rcases List.mem_cons.mp hmem with he | he
            · exact hxc he
            · simp at he
          · rw [if_neg hz]
            exact hxpart
        · intro x hxc
          rw [find_cell_set_ne _ _ _ _ hxc, find_cell_set_ne _ _ _ _ hxc]
        · exact keys_nodup_set_cell _ _ (keys_nodup_set_cell _ _ hkeys)
        · intro e he
          rcases mem_set_cell he with he' | he'
          · subst he'
            refine ⟨hal, hbd, ?_⟩
            intro hcls'
            refine ⟨?_, ?_, hndbs, ?_⟩
            · show dec16 (blocks_per_cell bin_index % W16) = _
              rw [hdec, hlenbs]
            · show _ ≤ blocks_per_cell bin_index
              rw [hlenbs]
              omega
            · intro a ha
              exact (hmemblk a).mpr (Or.inr ha)
          · rcases mem_set_cell he' with he'' | he''
            · subst he''
              refine ⟨hal, hbd, ?_⟩
              intro hcls'
              refine ⟨?_, ?_, ?_, ?_⟩
              · show blocks_per_cell bin_index % W16 =
                    ((c + kBlockStartOffset) ::
                      (List.range (blocks_per_cell bin_index - 1)).map
                        ((fun i => c + kBlockStartOffset + i * kSizeClasses.getD bin_index 0)
                          ∘ Nat.succ)).length
                rw [hnW, List.length_cons, hlenbs]
                omega
              · show ((c + kBlockStartOffset) ::
                      (List.range (blocks_per_cell bin_index - 1)).map
                        ((fun i => c + kBlockStartOffset + i * kSizeClasses.getD bin_index 0)
                          ∘ Nat.succ)).length ≤ blocks_per_cell bin_index
                rw [List.length_cons, hlenbs]
                omega
              · show ((c + kBlockStartOffset) ::
                      (List.range (blocks_per_cell bin_index - 1)).map
                        ((fun i => c + kBlockStartOffset + i * kSizeClasses.getD bin_index 0)
                          ∘ Nat.succ)).Nodup
                rw [← hblk]
                exact block_addrs_nodup hbin
              · intro a ha
                show a ∈ block_addrs c bin_index
                rw [hblk]
                exact ha
            · have hcwold := hcellswf e he''
              exact ⟨hcwold.1, hcellsbd e he'', hcwold.2.2⟩
        · exact fun i hi _ => hnp' i hi
        · by_cases hz : 0 < dec16 (blocks_per_cell bin_index % W16)
          · rw [if_pos hz]
            simp
          · rw [if_neg hz]
            simp [hpart]
        · intro x hx
          by_cases hz : 0 < dec16 (blocks_per_cell bin_index % W16)
          · rw [if_pos hz] at hx
            rcases List.mem_cons.mp hx with he | he
            · exact Or.inl he
            · simp at he
          · rw [if_neg hz] at hx
            simp [hpart] at hx
        · intro hcmem'
          by_cases hz : 0 < dec16 (blocks_per_cell bin_index % W16)
          · show 1 ≤ dec16 (blocks_per_cell bin_index % W16)
            omega
          · rw [if_neg hz] at hcmem'
            simp [hpart] at hcmem'
        · by_cases hz : 0 < dec16 (blocks_per_cell bin_index % W16)
          · rw [if_pos hz]
            exact (hbins bin_index (List.mem_range.mpr hbin)).2.1
          · rw [if_neg hz]
            exact (hbins bin_index (List.mem_range.mpr hbin)).2.1
        · exact inc64_lt _
        · exact inc64_lt _
      · intro j hj
        unfold get_bin
        exact getD_set_ne st.bins bin_index j _ SizeBin.zero hj
      · unfold get_bin
        rw [getD_set_self st.bins bin_index _ SizeBin.zero (by omega)]
        by_cases hz : 0 < dec16 (blocks_per_cell bin_index % W16)
        · rw [if_pos hz]
        · rw [if_neg hz]
      · unfold get_bin
        rw [getD_set_self st.bins bin_index _ SizeBin.zero (by omega)]
        by_cases hz : 0 < dec16 (blocks_per_cell bin_index % W16)
        · rw [if_pos hz]
        · rw [if_neg hz]
  · rw [hpart] at h
    dsimp only at h
    have hcmem : c ∈ (get_bin st bin_index).partial_cells := by rw [hpart]; simp
    obtain ⟨r, hfind, hcls, hcnt1, hcw⟩ := wf_partial_rec hwf hbin hcmem
    rw [hfind] at h
    dsimp only at h
    obtain ⟨hfc, hlemax, hndl, hblocks⟩ := hcw.2.2 (by
      show r.size_class < kNumSizeBins
      omega)
    rcases hfl : r.free_list with _ | ⟨b, bs⟩
    · rw [hfl] at h
      dsimp only at h
      simp at h
    · rw [hfl] at h
      dsimp only at h
      simp only [Prod.mk.injEq, Option.some.injEq] at h
      obtain ⟨hpb, hstq, hlk⟩ := h
      subst hpb
      subst hstq
      subst hlk
      rw [show (c, r).2.size_class = r.size_class from rfl, hcls] at hlemax hblocks
      have hmax16 := blocks_per_cell_lt hbin
      rw [hfl] at hndl hblocks hlemax
      have hfc' : r.free_count = bs.length + 1 := by
        rw [hfc, hfl]
        rfl
      have hlemax' : bs.length + 1 ≤ blocks_per_cell bin_index := by
        simpa using hlemax
      have hcntval : dec16 r.free_count = bs.length := by
        rw [dec16_small (by omega) (by omega), hfc']
        omega
      have hcstk : c ∉ st.pool.free_stack := fun hmem =>
        (hstk c hmem).2.2 bin_index (List.mem_range.mpr hbin) hcmem
      obtain ⟨hbbs, hndbs⟩ := List.nodup_cons.mp hndl
      have hoth : ∀ i ∈ List.range kNumSizeBins, i ≠ bin_index →
          c ∉ (get_bin st i).partial_cells := by
        intro i hi hne
        exact cell_not_in_other_partial hwf hfind i hi (by omega)
      have hbinwf := hbins bin_index (List.mem_range.mpr hbin)
      have hpnodup : (c :: rest).Nodup := hpart ▸ hbinwf.1
      refine ⟨c, ⟨r.tag, r.size_class, dec16 r.free_count, bs⟩, hcw.1, hcw.2.1,
        find_cell_set_self _ _ _, hcls, ?_, ?_, ?_, ?_, hcstk, ?_, rfl, rfl, ?_, ?_, ?_⟩
      · exact hcntval
      · show bs.length < blocks_per_cell bin_index
        omega
      · exact hblocks b (by simp)
      · exact hbbs
      · -- state_wf of the new state
        refine state_wf_assemble hwf hbin hpc hcr hrw hpnd ?_ ?_ ?_ ?_
          (find_cell_set_self _ _ _) hcls ?_ ?_ ?_ ?_ ?_ ?_ ?_
        · intro x hx
          obtain ⟨h1, h2, h3⟩ := hstk x hx
          refine ⟨h1, h2, fun i hi _ => h3 i hi, ?_⟩
          have hxc : x ≠ c := fun he => hcstk (he ▸ hx)
          have hxpart : x ∉ (get_bin st bin_index).partial_cells :=
            h3 bin_index (List.mem_range.mpr hbin)
          rw [hpart] at hxpart
          by_cases hz : dec16 r.free_count = 0
          · rw [if_pos hz]
            intro hmem
            exact hxpart (by simp [hmem])
          · rw [if_neg hz, hpart]
            exact hxpart
        · intro x hxc
          exact find_cell_set_ne _ _ _ _ hxc
        · exact keys_nodup_set_cell _ _ hkeys
        · intro e he
          rcases mem_set_cell he with he' | he'
          · subst he'
            refine ⟨hcw.1, hcw.2.1, ?_⟩
            intro hcls'
            refine ⟨hcntval, ?_, hndbs, ?_⟩
            · show bs.length ≤ blocks_per_cell r.size_class
              rw [hcls]
              omega
            · intro a ha
              show a ∈ block_addrs c r.size_class
              rw [hcls]
              exact hblocks a (by
                show a ∈ b :: bs
                simp only [List.mem_cons]
                right
                exact ha)
          · exact hcellswf e he'
        · exact hoth
        · by_cases hz : dec16 r.free_count = 0
          · rw [if_pos hz]
            exact (List.nodup_cons.mp hpnodup).2
          · rw [if_neg hz]
            rw [hpart]
            exact hpnodup
        · intro x hx
          right
          rw [hpart]
          by_cases hz : dec16 r.free_count = 0
          · rw [if_pos hz] at hx
            simp [hx]
          · rw [if_neg hz] at hx
            rw [hpart] at hx
            exact hx
        · intro hcmem'
          by_cases hz : dec16 r.free_count = 0
          · rw [if_pos hz] at hcmem'
            exact absurd hcmem' (List.nodup_cons.mp hpnodup).1
          · show 1 ≤ dec16 r.free_count
            omega
        · by_cases hz : dec16 r.free_count = 0
          · rw [if_pos hz]
            exact hbinwf.2.1
          · rw [if_neg hz]
            exact hbinwf.2.1
        · exact inc64_lt _
        · exact inc64_lt _
      · intro j hj
        unfold get_bin
        exact getD_set_ne st.bins bin_index j _ SizeBin.zero hj
      · unfold get_bin
        rw [getD_set_self st.bins bin_index _ SizeBin.zero (by omega)]
        by_cases hz : dec16 r.free_count = 0
        · rw [if_pos hz]
        · rw [if_neg hz]
      · unfold get_bin
        rw [getD_set_self st.bins bin_index _ SizeBin.zero (by omega)]
        by_cases hz : dec16 r.free_count = 0
        · rw [if_pos hz]
        · rw [if_neg hz]


theorem free_to_bin_spec {st : Ctx} {p h : Nat} {r : CellRec} {bin_index : Nat}
    (hwf : state_wf st)
    (hfind : find_cell st.cells h = some r) (hcls : r.size_class = bin_index)
    (hbin : bin_index < kNumSizeBins)
    (hp : p ∈ block_addrs h bin_index) (hnp : p ∉ r.free_list)
    (hcnt : r.free_list.length < blocks_per_cell bin_index)
    (hstk : h ∉ st.pool.free_stack) :
    state_wf (free_to_bin st p h) ∧
    (free_to_bin st p h).alloc_ok = st.alloc_ok ∧
    (free_to_bin st p h).pool.reserve_size = st.pool.reserve_size ∧
    (∀ j, j ≠ bin_index → get_bin (free_to_bin st p h) j = get_bin st j) ∧
    (get_bin (free_to_bin st p h) bin_index).current_allocated =
      dec64 ((get_bin st bin_index).current_allocated) := by
  have hlen := hwf.1
  have hkeys := hwf.2.1
  have hcellswf := hwf.2.2.1
  have hbins := hwf.2.2.2.1
  obtain ⟨hpc, hcr, hrw, hpnd, hstkwf⟩ := hwf.2.2.2.2
  have hcw := hcellswf (h, r) (find_cell_mem hfind)
  obtain ⟨hfc, hlemax, hndl, hblocks⟩ := hcw.2.2 (by show r.size_class < kNumSizeBins; omega)
  rw [show (h, r).2.size_class = r.size_class from rfl, hcls] at hlemax hblocks
  have hmax16 := blocks_per_cell_lt hbin
  have hfc' : r.free_count = r.free_list.length := hfc
  have hinc : inc16 r.free_count = r.free_count + 1 := inc16_small (by omega)
  have hbinwf := hbins bin_index (List.mem_range.mpr hbin)
  have hothers : ∀ i ∈ List.range kNumSizeBins, i ≠ bin_index →
      h ∉ (get_bin st i).partial_cells := by
    intro i hi hne
    exact cell_not_in_other_partial hwf hfind i hi (by omega)
  have hnotin_full : r.free_count = 0 → h ∉ (get_bin st bin_index).partial_cells := by
    intro hz hmem
    obtain ⟨hok1, hok2⟩ := hbinwf.2.2.2.2 h hmem
    rw [hfind] at hok2
    simp at hok2
    omega
  have hstk_ne : ∀ x ∈ st.pool.free_stack, x ≠ h := fun x hx he => hstk (he ▸ hx)
  have hr1wf : cell_wf st.pool.cursor
      (h, { tag := r.tag, size_class := bin_index,
            free_count := inc16 r.free_count, free_list := p :: r.free_list }) := by
    refine ⟨hcw.1, hcw.2.1, ?_⟩
    intro _
    refine ⟨?_, ?_, ?_, ?_⟩
    · show inc16 r.free_count = (p :: r.free_list).length
      rw [hinc, hfc']
      simp
    · show (p :: r.free_list).length ≤ blocks_per_cell bin_index
      simp only [List.length_cons]
      omega
    · exact List.nodup_cons.mpr ⟨hnp, hndl⟩
    · intro a ha
      rcases List.mem_cons.mp ha with he | he
      · exact he ▸ hp
      · exact hblocks a he
  simp only [free_to_bin]
  rw [hfind]
  dsimp only
  rw [hcls]
  rw [if_pos hbin]
  by_cases hfull : inc16 r.free_count = blocks_per_cell bin_index
  · rw [if_pos hfull]
    by_cases hwarm : (get_bin st bin_index).warm_cell_count < kWarmCellsPerBin
    · rw [if_pos hwarm]
      have hwarm' : inc64 ((get_bin st bin_index).warm_cell_count) ≤ kWarmCellsPerBin := by
        have : (get_bin st bin_index).warm_cell_count + 1 ≤ kWarmCellsPerBin := hwarm
        have hsm : inc64 ((get_bin st bin_index).warm_cell_count) =
            (get_bin st bin_index).warm_cell_count + 1 := by
          unfold inc64 W64
          exact Nat.mod_eq_of_lt (by unfold kWarmCellsPerBin at this; omega)
        omega
      refine ⟨?_, rfl, rfl, ?_, ?_⟩
      · refine state_wf_assemble hwf hbin hpc hcr hrw hpnd ?_ ?_ ?_ ?_
          (find_cell_set_self _ _ _) rfl ?_ ?_ ?_ ?_ ?_ ?_ ?_
        · intro x hx
          obtain ⟨h1, h2, h3⟩ := hstkwf x hx
          refine ⟨h1, h2, fun i hi _ => h3 i hi, ?_⟩
          have hxh := hstk_ne x hx
          have hxpart := h3 bin_index (List.mem_range.mpr hbin)
          by_cases hz : r.free_count = 0
          · rw [if_pos hz]
            intro hmem
            rcases List.mem_cons.mp hmem with he | he
            · exact hxh he
            · exact hxpart he
          · rw [if_neg hz]
            exact hxpart
        · intro x hxc
          exact find_cell_set_ne _ _ _ _ hxc
        · exact keys_nodup_set_cell _ _ hkeys
        · intro e he
          rcases mem_set_cell he with he' | he'
          · exact he' ▸ hr1wf
          · exact hcellswf e he'
        · exact hothers
        · by_cases hz : r.free_count = 0
          · rw [if_pos hz]
            exact List.nodup_cons.mpr ⟨hnotin_full hz, hbinwf.1⟩
          · rw [if_neg hz]
            exact hbinwf.1
        · intro x hx
          by_cases hz : r.free_count = 0
          · rw [if_pos hz] at hx
            rcases List.mem_cons.mp hx with he | he
            · exact Or.inl he
            · exact Or.inr he
          · rw [if_neg hz] at hx
            exact Or.inr hx
        · intro _
          show 1 ≤ inc16 r.free_count
          omega
        · exact hwarm'
        · exact hbinwf.2.2.1
        · exact dec64_lt _
      · intro j hj
        unfold get_bin
        exact getD_set_ne st.bins bin_index j _ SizeBin.zero hj
      · unfold get_bin
        rw [getD_set_self st.bins bin_index _ SizeBin.zero (by omega)]
    · rw [if_neg hwarm]
      refine ⟨?_, rfl, rfl, ?_, ?_⟩
      · refine state_wf_assemble hwf hbin hpc hcr hrw ?_ ?_ ?_ ?_ ?_
          (find_cell_set_self _ _ _) rfl ?_ ?_ ?_ ?_ ?_ ?_ ?_
        · show (h :: st.pool.free_stack).Nodup
          exact List.nodup_cons.mpr ⟨hstk, hpnd⟩
        · intro x hx
          rcases List.mem_cons.mp hx with he | he
          · subst he
            refine ⟨hcw.1, hcw.2.1, fun i hi hne => hothers i hi hne, ?_⟩
            exact not_mem_remove_cell hbinwf.1
          · obtain ⟨h1, h2, h3⟩ := hstkwf x he
            refine ⟨h1, h2, fun i hi _ => h3 i hi, ?_⟩
            intro hmem
            exact h3 bin_index (List.mem_range.mpr hbin) (mem_remove_cell hmem)
        · intro x hxc
          exact find_cell_set_ne _ _ _ _ hxc
        · exact keys_nodup_set_cell _ _ hkeys
        · intro e he
          rcases mem_set_cell he with he' | he'
          · exact he' ▸ hr1wf
          · exact hcellswf e he'
        · exact hothers
        · exact nodup_remove_cell _ hbinwf.1
        · intro x hx
          exact Or.inr (mem_remove_cell hx)
        · intro _
          show 1 ≤ inc16 r.free_count
          omega
        · exact hbinwf.2.1
        · exact hbinwf.2.2.1
        · exact dec64_lt _
      · intro j hj
        unfold get_bin
        exact getD_set_ne st.bins bin_index j _ SizeBin.zero hj
      · unfold get_bin
        rw [getD_set_self st.bins bin_index _ SizeBin.zero (by omega)]
  · rw [if_neg hfull]
    by_cases hz : r.free_count = 0
    · rw [if_pos hz]
      refine ⟨?_, rfl, rfl, ?_, ?_⟩
      · refine state_wf_assemble hwf hbin hpc hcr hrw hpnd ?_ ?_ ?_ ?_
          (find_cell_set_self _ _ _) rfl ?_ ?_ ?_ ?_ ?_ ?_ ?_
        · intro x hx
          obtain ⟨h1, h2, h3⟩ := hstkwf x hx
          refine ⟨h1, h2, fun i hi _ => h3 i hi, ?_⟩
          intro hmem
          rcases List.mem_cons.mp hmem with he | he
          · exact hstk_ne x hx he
          · exact h3 bin_index (List.mem_range.mpr hbin) he
        · intro x hxc
          exact find_cell_set_ne _ _ _ _ hxc
        · exact keys_nodup_set_cell _ _ hkeys
        · intro e he
          rcases mem_set_cell he with he' | he'
          · exact he' ▸ hr1wf
          · exact hcellswf e he'
        · exact hothers
        · exact List.nodup_cons.mpr ⟨hnotin_full hz, hbinwf.1⟩
        · intro x hx
          rcases List.mem_cons.mp hx with he | he
          · exact Or.inl he
          · exact Or.inr he
        · intro _
          show 1 ≤ inc16 r.free_count
          omega
        · exact hbinwf.2.1
        · exact hbinwf.2.2.1
        · exact dec64_lt _
      · intro j hj
        unfold get_bin
        exact getD_set_ne st.bins bin_index j _ SizeBin.zero hj
      · unfold get_bin
        rw [getD_set_self st.bins bin_index _ SizeBin.zero (by omega)]
    · rw [if_neg hz]
      refine ⟨?_, rfl, rfl, ?_, ?_⟩
      · refine state_wf_assemble hwf hbin hpc hcr hrw hpnd ?_ ?_ ?_ ?_
          (find_cell_set_self _ _ _) rfl ?_ ?_ ?_ ?_ ?_ ?_ ?_
        · intro x hx
          obtain ⟨h1, h2, h3⟩ := hstkwf x hx
          exact ⟨h1, h2, fun i hi _ => h3 i hi,
            h3 bin_index (List.mem_range.mpr hbin)⟩
        · intro x hxc
          exact find_cell_set_ne _ _ _ _ hxc
        · exact keys_nodup_set_cell _ _ hkeys
        · intro e he
          rcases mem_set_cell he with he' | he'
          · exact he' ▸ hr1wf
          · exact hcellswf e he'
        · exact hothers
        · exact hbinwf.1
        · intro x hx
          exact Or.inr hx
        · intro _
          show 1 ≤ inc16 r.free_count
          omega
        · exact hbinwf.2.1
        · exact hbinwf.2.2.1
        · exact dec64_lt _
      · intro j hj
        unfold get_bin
        exact getD_set_ne st.bins bin_index j _ SizeBin.zero hj
      · unfold get_bin
        rw [getD_set_self st.bins bin_index _ SizeBin.zero (by omega)]


/-- Running `init_cell_for_bin` on a fresh, aligned, already-carved cell that is in
no partial list preserves well-formedness. -/
theorem init_cell_spec {st : Ctx} (hwf : state_wf st) {c bin_index tag : Nat}
    (hbin : bin_index < kNumSizeBins)
    (hal : c % kCellSize = 0) (hcur : c + kCellSize ≤ st.pool.cursor)
    (hnp : ∀ i ∈ List.range kNumSizeBins, c ∉ (get_bin st i).partial_cells) :
    state_wf { st with cells := (init_cell_for_bin st.cells c bin_index tag).2 } := by
  obtain ⟨hlen, hkeys, hcellswf, hbins, hpool⟩ := hwf
  have hmax16 := blocks_per_cell_lt hbin
  have hnW : blocks_per_cell bin_index % W16 = blocks_per_cell bin_index :=
    Nat.mod_eq_of_lt (by omega)
  refine ⟨hlen, ?_, ?_, ?_, ?_⟩
  · exact keys_nodup_set_cell _ _ hkeys
  · intro e he
    rcases mem_set_cell he with he' | he'
    · subst he'
      refine ⟨hal, hcur, ?_⟩
      intro _
      refine ⟨?_, ?_, ?_, ?_⟩
      · show blocks_per_cell bin_index % W16 = (block_addrs c bin_index).length
        rw [hnW]
        unfold block_addrs
        simp
      · show (block_addrs c bin_index).length ≤ blocks_per_cell bin_index
        unfold block_addrs
        simp
      · exact block_addrs_nodup hbin
      · intro a ha
        exact ha
    · exact hcellswf e he'
  · intro i hi
    have hbw := hbins i hi
    refine ⟨hbw.1, hbw.2.1, hbw.2.2.1, hbw.2.2.2.1, ?_⟩
    intro x hx
    have hxc : x ≠ c := fun he => hnp i hi (he ▸ hx)
    have hok := hbw.2.2.2.2 x hx
    unfold partial_cell_ok at hok ⊢
    rw [show ({ st with cells := (init_cell_for_bin st.cells c bin_index tag).2 } : Ctx).cells
        = set_cell st.cells c (init_cell_for_bin st.cells c bin_index tag).1 from rfl]
    rw [find_cell_set_ne _ _ _ _ hxc]
    exact hok
  · exact hpool

/-- The mutex trace of `alloc_from_bin`: the bin lock is acquired on every
path through the function. -/
theorem alloc_from_bin_locks (st : Ctx) (bin_index tag : Nat) :
    (alloc_from_bin st bin_index tag).2.2 = [bin_index] := by
  simp only [alloc_from_bin]
  rcases (get_bin st bin_index).partial_cells with _ | ⟨c, rest⟩
  · rcases pool_alloc st.pool with ⟨_ | c, p'⟩
    · rfl
    · dsimp only
      rcases (init_cell_for_bin st.cells c bin_index tag).1.free_list with _ | ⟨b, bs⟩
      · rfl
      · rfl
  · dsimp only
    rcases find_cell st.cells c with _ | r
    · rfl
    · dsimp only
      rcases r.free_list with _ | ⟨b, bs⟩
      · rfl
      · rfl

/-- Everything a successful `alloc_cell` guarantees on a well-formed state. -/
theorem alloc_cell_spec {st st' : Ctx} {tag c : Nat} (hwf : state_wf st)
    (h : alloc_cell st tag = (some c, st')) :
    c % kCellSize = 0 ∧ c + kCellSize ≤ st'.pool.cursor ∧
    st'.pool.cursor ≤ st'.pool.reserve_size ∧ st'.pool.reserve_size ≤ W64 ∧
    ((find_cell st'.cells c).map CellRec.size_class = some kFullCellMarker) ∧
    st'.bins = st.bins ∧ st'.alloc_ok = true ∧ st.alloc_ok = true ∧
    st'.pool.reserve_size = st.pool.reserve_size := by
  have hrw := hwf.2.2.2.2.2.2.1
  unfold alloc_cell at h
  rcases hok : st.alloc_ok with _ | _
  · rw [hok] at h
    simp at h
  · rw [hok] at h
    rw [if_pos rfl] at h
    rcases hpa : pool_alloc st.pool with ⟨oc, p'⟩
    rw [hpa] at h
    rcases oc with _ | c0
    · simp at h
    · dsimp only at h
      simp only [Prod.mk.injEq, Option.some.injEq] at h
      obtain ⟨hc, hst⟩ := h
      subst hc
      subst hst
      obtain ⟨hal, hbd, hpc', hpr', hres', _⟩ := pool_alloc_spec hwf hpa
      refine ⟨hal, hbd, hpr', by rw [hres']; exact hrw, ?_, rfl, rfl, rfl, hres'⟩
      rw [find_cell_set_self]
      rfl

/-! ### `get_size_class`: range and agreement with the specification -/

theorem find_bin_loop_range (l : List Nat) (i sz al : Nat) :
    find_bin_loop l i sz al = kFullCellMarker ∨
    (i ≤ find_bin_loop l i sz al ∧ find_bin_loop l i sz al < i + l.length) := by
  induction l generalizing i with
  | nil => exact Or.inl rfl
  | cons cls rest ih =>
    unfold find_bin_loop
    by_cases hcd : sz ≤ cls ∧ al ≤ cls
    · rw [if_pos hcd]
      right
      simp
    · rw [if_neg hcd]
      rcases ih (i + 1) with h' | h'
      · exact Or.inl h'
      · right
        refine ⟨by omega, ?_⟩
        simp only [List.length_cons]
        omega

theorem get_size_class_cases (s a : Nat) :
    get_size_class s a = kFullCellMarker ∨ get_size_class s a < kNumSizeBins := by
  simp only [get_size_class]
  rcases find_bin_loop_range kSizeClasses 0
    (if align_up s a < kMinBlockSize then kMinBlockSize else align_up s a) a with h | h
  · exact Or.inl h
  · right
    have : kSizeClasses.length = kNumSizeBins := by decide
    omega

theorem find_bin_loop_none (l : List Nat) (i sz al : Nat)
    (h : ∀ cls ∈ l, cls < sz) : find_bin_loop l i sz al = kFullCellMarker := by
  induction l generalizing i with
  | nil => rfl
  | cons cls rest ih =>
    unfold find_bin_loop
    have hcls : cls < sz := h cls (by simp)
    rw [if_neg (by omega)]
    exact ih (i + 1) fun x hx => h x (by simp [hx])

theorem get_size_class_full_of_large {s a : Nat} (h : 8192 < align_up s a) :
    get_size_class s a = kFullCellMarker := by
  simp only [get_size_class]
  have h16 : ¬ align_up s a < kMinBlockSize := by
    unfold kMinBlockSize
    omega
  rw [if_neg h16]
  refine find_bin_loop_none _ _ _ _ ?_
  have hmem : ∀ cls ∈ kSizeClasses, cls ≤ 8192 := by decide
  intro cls hcls
  have := hmem cls hcls
  omega

/-- The size-class rule as the specification words it: round the size up to
a multiple of the alignment, floor at 16 bytes, and take the smallest bin
whose class size is at least both the adjusted size and the alignment
(`FULL_CELL` when none is). -/
def spec_size_class (size alignment : Nat) : Nat :=
  let adjusted := alignment * ((size + alignment - 1) / alignment)
  let floored := max adjusted kMinBlockSize
  match List.findIdx?
      (fun cls => decide (floored ≤ cls) && decide (alignment ≤ cls)) kSizeClasses with
  | some i => i
  | none => kFullCellMarker

theorem find_bin_loop_eq_findIdx (l : List Nat) (sz al : Nat) : ∀ i,
    find_bin_loop l i sz al =
      match List.findIdx? (fun cls => decide (sz ≤ cls) && decide (al ≤ cls)) l i with
      | some j => j
      | none => kFullCellMarker := by
  induction l with
  | nil =>
    intro i
    rw [List.findIdx?_nil]
    rfl
  | cons cls rest ih =>
    intro i
    rw [List.findIdx?_cons]
    by_cases hcd : sz ≤ cls ∧ al ≤ cls
    · rw [show (decide (sz ≤ cls) && decide (al ≤ cls)) = true by
        simp [hcd.1, hcd.2]]
      unfold find_bin_loop
      rw [if_pos hcd]
      rfl
    · rw [show (decide (sz ≤ cls) && decide (al ≤ cls)) = false by
        rcases Decidable.not_and_iff_or_not.mp hcd with h' | h' <;> simp [h']]
      unfold find_bin_loop
      rw [if_neg hcd]
      exact ih (i + 1)


theorem get_size_class_eq_spec (s k : Nat) (hk : k < 64) (hs : s + 2 ^ k ≤ W64) :
    get_size_class s (2 ^ k) = spec_size_class s (2 ^ k) := by
  simp only [get_size_class, spec_size_class]
  rw [align_up_pow s k hk hs]
  have hmax : (if 2 ^ k * ((s + 2 ^ k - 1) / 2 ^ k) < kMinBlockSize then kMinBlockSize
      else 2 ^ k * ((s + 2 ^ k - 1) / 2 ^ k)) =
      max (2 ^ k * ((s + 2 ^ k - 1) / 2 ^ k)) kMinBlockSize := by
    split <;> omega
  rw [hmax]
  exact find_bin_loop_eq_findIdx kSizeClasses _ _ 0

/-- Routing: `alloc_bytes` in the sub-cell regime is exactly `alloc_from_bin`. -/
theorem alloc_bytes_bin_route {st st₁ : Ctx} {size tag alignment p : Nat}
    (hbin : get_size_class size alignment < kNumSizeBins)
    (h : alloc_bytes st size tag alignment = (some p, st₁)) :
    alloc_from_bin st (get_size_class size alignment) tag =
      (some p, st₁, [get_size_class size alignment]) := by
  have hlocks := alloc_from_bin_locks st (get_size_class size alignment) tag
  simp only [alloc_bytes] at h
  by_cases hguard : st.alloc_ok = false ∨ size = 0
  · rw [if_pos hguard] at h
    simp at h
  · rw [if_neg hguard] at h
    have hne : ¬(get_size_class size alignment = kFullCellMarker) := by
      unfold kFullCellMarker kNumSizeBins at *
      omega
    rw [if_neg hne] at h
    rcases ha : alloc_from_bin st (get_size_class size alignment) tag with ⟨r0, st0, lk0⟩
    rw [ha] at h hlocks
    dsimp only at h hlocks
    simp only [Prod.mk.injEq] at h
    obtain ⟨h1, h2⟩ := h
    rw [h1, h2, hlocks]

/-- Routing: `free_bytes` on a pointer whose header address is itself and whose
stored class is `kFullCellMarker` routes through `free_cell`. -/
theorem free_bytes_full_cell {st : Ctx} {c : Nat} {r : CellRec}
    (hok : st.alloc_ok = true)
    (hgh : get_header c = c)
    (hfind : find_cell st.cells c = some r) (hcls : r.size_class = kFullCellMarker) :
    free_bytes st (some c) = { st with pool := pool_free st.pool c } := by
  simp only [free_bytes]
  rw [hgh, hfind]
  dsimp only
  rw [if_pos hcls]
  unfold free_cell
  rw [if_pos hok]

/-- Routing: `alloc_bytes` in the full-cell regime: the returned pointer is the cell
base itself, the header is stored at that very address, and `free_bytes`
routes it back through `free_cell`. -/
theorem alloc_bytes_full_route {st st₁ : Ctx} {size tag alignment p : Nat}
    (hwf : state_wf st)
    (hfull : get_size_class size alignment = kFullCellMarker)
    (h : alloc_bytes st size tag alignment = (some p, st₁)) :
    p % kCellSize = 0 ∧ p < W64 ∧ get_header p = p ∧
    ((find_cell st₁.cells p).map CellRec.size_class = some kFullCellMarker) ∧
    st₁.bins = st.bins ∧ st₁.alloc_ok = true ∧
    st₁.pool.reserve_size = st.pool.reserve_size ∧
    free_bytes st₁ (some p) = { st₁ with pool := pool_free st₁.pool p } := by
  simp only [alloc_bytes] at h
  by_cases hguard : st.alloc_ok = false ∨ size = 0
  · rw [if_pos hguard] at h
    simp at h
  · rw [if_neg hguard] at h
    rw [if_pos hfull] at h
    rcases hac : alloc_cell st tag with ⟨oc, st'⟩
    rw [hac] at h
    rcases oc with _ | c
    · simp at h
    · dsimp only at h
      obtain ⟨hal, hbd, hcr', hrw', hmap, hbins', hok', hokst, hres⟩ :=
        alloc_cell_spec hwf hac
      rcases hf : find_cell st'.cells c with _ | rec
      · rw [hf] at hmap
        simp at hmap
      · rw [hf] at h hmap
        simp at hmap
        dsimp only at h
        simp only [Prod.mk.injEq, Option.some.injEq] at h
        obtain ⟨hc, hst⟩ := h
        subst hc
        subst hst
        have hplt : c < W64 := by
          have : (0:Nat) < kCellSize := by decide
          omega
        have hfind₁ : find_cell
            (set_cell st'.cells c { rec with size_class := kFullCellMarker }) c =
            some { rec with size_class := kFullCellMarker } := find_cell_set_self _ _ _
        refine ⟨hal, hplt, get_header_of_base hal hplt, ?_, hbins', hok', hres, ?_⟩
        · show (find_cell
              (set_cell st'.cells c { rec with size_class := kFullCellMarker }) c).map
              CellRec.size_class = some kFullCellMarker
          rw [hfind₁]
          rfl
        · exact free_bytes_full_cell hok' (get_header_of_base hal hplt) hfind₁ rfl


theorem getD_replicate_zero (n i : Nat) :
    (List.replicate n SizeBin.zero).getD i SizeBin.zero = SizeBin.zero := by
  induction n generalizing i with
  | zero => cases i <;> rfl
  | succ n ih =>
    cases i with
    | zero => rfl
    | succ j => exact ih j

/-- The `Context` constructor produces a well-formed state whenever the
configured reservation fits in the address space. -/
theorem mk_context_wf (ok : Bool) (reserve : Nat) (hr : reserve ≤ W64) :
    state_wf (mk_context ok reserve) := by
  have hW : (0:Nat) < W64 := by decide
  refine ⟨by simp [mk_context], by simp [mk_context], ?_, ?_, ?_⟩
  · intro e he
    simp [mk_context] at he
  · intro i hi
    unfold bin_wf get_bin
    rw [show (mk_context ok reserve).bins = List.replicate kNumSizeBins SizeBin.zero
      from rfl, getD_replicate_zero]
    refine ⟨by simp [SizeBin.zero], by simp [SizeBin.zero], by simpa [SizeBin.zero] using hW,
      by simpa [SizeBin.zero] using hW, ?_⟩
    intro c hc
    simp [SizeBin.zero] at hc
  · refine ⟨by simp [mk_context], by simp [mk_context], hr, by simp [mk_context], ?_⟩
    intro c hc
    simp [mk_context] at hc

/-- Operation `alloc_from_bin` preserves well-formedness on every path,
including the failure paths. -/
theorem alloc_from_bin_wf {st : Ctx} (hwf : state_wf st) {bin_index : Nat} (tag : Nat)
    (hbin : bin_index < kNumSizeBins) :
    state_wf (alloc_from_bin st bin_index tag).2.1 := by
  rcases hres : (alloc_from_bin st bin_index tag).1 with _ | p
  · simp only [alloc_from_bin] at hres ⊢
    rcases hpart : (get_bin st bin_index).partial_cells with _ | ⟨c, rest⟩
    · rw [hpart] at hres
      dsimp only at hres ⊢
      rcases hpa : pool_alloc st.pool with ⟨oc, p'⟩
      rw [hpa] at hres
      rcases oc with _ | c
      · dsimp only at hres ⊢
        have hp' : p' = st.pool := by
          unfold pool_alloc at hpa
          rcases hfs : st.pool.free_stack with _ | ⟨c0, r0⟩
          · rw [hfs] at hpa
            by_cases hg : st.pool.cursor + kSuperblockSize ≤ st.pool.reserve_size
            · rw [if_pos hg] at hpa
              simp at hpa
            · rw [if_neg hg] at hpa
              simp at hpa
              exact hpa.symm
          · rw [hfs] at hpa
            simp at hpa
        subst hp'
        exact hwf
      · dsimp only at hres ⊢
        simp only [init_cell_for_bin] at hres ⊢
        have hn1 : 1 ≤ blocks_per_cell bin_index := blocks_per_cell_pos hbin
        rcases hfl : (List.range (blocks_per_cell bin_index)).map
            (fun i => c + kBlockStartOffset + i * kSizeClasses.getD bin_index 0)
            with _ | ⟨b, bs⟩
        · exfalso
          have := congrArg List.length hfl
          simp at this
          omega
        · rw [hfl] at hres
          dsimp only at hres
          simp at hres
    · rw [hpart] at hres
      dsimp only at hres ⊢
      rcases hfind : find_cell st.cells c with _ | r
      · rw [hfind] at hres
        exact hwf
      · rw [hfind] at hres
        dsimp only at hres ⊢
        rcases hfl : r.free_list with _ | ⟨b, bs⟩
        · rw [hfl] at hres
          exact hwf
        · rw [hfl] at hres
          dsimp only at hres
          simp at hres
  · have hpair : alloc_from_bin st bin_index tag =
        (some p, (alloc_from_bin st bin_index tag).2.1,
          (alloc_from_bin st bin_index tag).2.2) := by
      rw [← hres]
    obtain ⟨c, r₁, hconj⟩ := alloc_from_bin_spec hwf hbin hpair
    exact hconj.2.2.2.2.2.2.2.2.2.1

/-- Operation `free_to_bin` preserves well-formedness given a valid free. -/
theorem free_to_bin_wf {st : Ctx} (hwf : state_wf st) {p h : Nat}
    (hvf : valid_free st p h) : state_wf (free_to_bin st p h) := by
  rcases hfind : find_cell st.cells h with _ | r
  · have heq : free_to_bin st p h = st := by
      simp only [free_to_bin]
      rw [hfind]
    rw [heq]
    exact hwf
  · by_cases hcls : r.size_class < kNumSizeBins
    · have h1 := hvf (by rw [hfind]; rfl)
        (by show ((find_cell st.cells h).getD default).size_class < kNumSizeBins
            rw [hfind]
            exact hcls)
      simp only [hfind, Option.getD_some] at h1
      obtain ⟨hp, hnp, hcnt, hstk⟩ := h1
      exact (free_to_bin_spec hwf hfind rfl hcls hp hnp hcnt hstk).1
    · have heq : free_to_bin st p h = st := by
        simp only [free_to_bin]
        rw [hfind]
        dsimp only
        rw [if_neg hcls]
      rw [heq]
      exact hwf

/-! ### The claims -/

/-- C1: every pointer handed out by `alloc_from_bin` (any bin, hence any
`alloc_bytes` request of at most 8 KiB) lies inside a Cell whose header sits
exactly at `p & ~(kCellSize-1)`, i.e. `get_header` recovers the base of the
Cell the block was carved from; and every pointer returned by `alloc_cell`
is itself the header address of its Cell. -/
theorem C1_header_lookup :
    (∀ st bin_index tag p st₁ lks, state_wf st → bin_index < kNumSizeBins →
      alloc_from_bin st bin_index tag = (some p, st₁, lks) →
      ∃ c, c % kCellSize = 0 ∧ get_header p = c ∧ p ∈ block_addrs c bin_index ∧
        ((find_cell st₁.cells c).map CellRec.size_class = some bin_index)) ∧
    (∀ st tag c st', state_wf st → alloc_cell st tag = (some c, st') →
      get_header c = c ∧
      ((find_cell st'.cells c).map CellRec.size_class = some kFullCellMarker)) := by
  constructor
  · intro st bin_index tag p st₁ lks hwf hbin h
    obtain ⟨c, r₁, hal, hbd, hfind₁, hcls₁, _, _, hpmem, _, _, hwf₁, _, _, _, _, _⟩ :=
      alloc_from_bin_spec hwf hbin h
    obtain ⟨_, hcr₁, hrw₁, _, _⟩ := hwf₁.2.2.2.2
    have hgh : get_header p = c := by
      obtain ⟨hle, hlt2, _⟩ := block_addrs_offset hbin hpmem
      rw [show p = c + (p - c) from by omega]
      exact get_header_add hal (by omega) (by omega)
    refine ⟨c, hal, hgh, hpmem, ?_⟩
    rw [hfind₁]
    simp [hcls₁]
  · intro st tag c st' hwf h
    obtain ⟨hal, hbd, hcr', hrw', hmap, _⟩ := alloc_cell_spec hwf h
    have hcellpos : (0:Nat) < kCellSize := by decide
    exact ⟨get_header_of_base hal (by omega), hmap⟩

/-- C1 witness: concrete instances of both parts on a fresh context. -/
theorem C1_header_lookup_witness :
    (∃ c, c % kCellSize = 0 ∧ get_header 32 = c ∧ 32 ∈ block_addrs c 0 ∧
      ((find_cell (alloc_from_bin (mk_context true kSuperblockSize) 0 0).2.1.cells c).map
        CellRec.size_class = some 0)) ∧
    (get_header 0 = 0 ∧
      ((find_cell (alloc_cell (mk_context true kSuperblockSize) 0).2.cells 0).map
        CellRec.size_class = some kFullCellMarker)) :=
  ⟨C1_header_lookup.1 (mk_context true kSuperblockSize) 0 0 32
      ((alloc_from_bin (mk_context true kSuperblockSize) 0 0).2.1)
      ((alloc_from_bin (mk_context true kSuperblockSize) 0 0).2.2)
      (by decide) (by decide) (by decide),
   C1_header_lookup.2 (mk_context true kSuperblockSize) 0 0
      ((alloc_cell (mk_context true kSuperblockSize) 0).2) (by decide) (by decide)⟩

/-- C2: the code routes every request above 8 KiB — including the whole
16 KiB < size ≤ 2 MiB band the spec assigns to the Buddy tier — to a single
16 KiB Cell.  At the failing input 17408 (17 KiB) the allocation is served
by one full Cell (`size_class = kFullCellMarker`) whose total size
`kCellSize` is smaller than the request. -/
theorem C2_full_cell_route_bug :
    (alloc_bytes (mk_context true kSuperblockSize) 17408 0 8).1 = some 0 ∧
    ((find_cell (alloc_bytes (mk_context true kSuperblockSize) 17408 0 8).2.cells 0).map
      CellRec.size_class = some kFullCellMarker) ∧
    kCellSize < 17408 := by decide

/-- C3: the first block of a fresh 64-byte-class Cell sits at offset
`kBlockStartOffset = 32`, so `alloc_bytes(64, tag, 64)` returns an address
that is ≡ 32 (mod 64) — not a multiple of the bin's class size. -/
theorem C3_alignment_bug :
    get_size_class 64 64 = 2 ∧
    (alloc_bytes (mk_context true kSuperblockSize) 64 0 64).1 = some 32 ∧
    32 % kSizeClasses.getD 2 0 = 32 ∧
    32 % kSizeClasses.getD 2 0 ≠ 0 := by decide

/-- C4 counterexample: with `size = 2^64 - 1` and alignment 16 the `size_t`
round-up in `align_up` wraps to 0, the request is floored to 16 bytes and
lands in bin 0, while the claim's smallest-bin rule yields `FULL_CELL`. -/
theorem C4_size_class_overflow_cex :
    get_size_class (2 ^ 64 - 1) 16 = 0 ∧
    spec_size_class (2 ^ 64 - 1) 16 = kFullCellMarker ∧
    (0 : Nat) ≠ kFullCellMarker := by decide

/-- C4 amended: whenever the round-up `size + alignment - 1` does not
overflow 64 bits, `get_size_class` computes exactly the claim's rule —
round the size up to the (power-of-two) alignment, floor at 16 bytes, and
pick the smallest bin at least as large as both the adjusted size and the
alignment, `FULL_CELL` if none exists. -/
theorem C4_size_class_amended (size k : Nat) (hk : k < 64)
    (hov : size + 2 ^ k ≤ W64) :
    get_size_class size (2 ^ k) = spec_size_class size (2 ^ k) :=
  get_size_class_eq_spec size k hk hov

/-- C4 witness. -/
theorem C4_size_class_amended_witness :
    get_size_class 64 (2 ^ 6) = spec_size_class 64 (2 ^ 6) :=
  C4_size_class_amended 64 6 (by decide) (by decide)

/-- C5 counterexample: one `alloc_bytes(16)/free_bytes` pair on a fresh
context does not restore the initial state — `total_allocated` has grown,
a warm cell is retained in bin 0's partial list, and the Cell Pool has
carved a superblock. -/
theorem C5_roundtrip_cex :
    (alloc_bytes (mk_context true kSuperblockSize) 16 0 8).1 = some 32 ∧
    free_bytes (alloc_bytes (mk_context true kSuperblockSize) 16 0 8).2 (some 32)
      ≠ mk_context true kSuperblockSize ∧
    (get_bin (free_bytes (alloc_bytes (mk_context true kSuperblockSize) 16 0 8).2
      (some 32)) 0).total_allocated = 1 ∧
    (get_bin (mk_context true kSuperblockSize) 0).total_allocated = 0 ∧
    (get_bin (free_bytes (alloc_bytes (mk_context true kSuperblockSize) 16 0 8).2
      (some 32)) 0).warm_cell_count = 1 ∧
    (get_bin (mk_context true kSuperblockSize) 0).warm_cell_count = 0 := by decide

/-- C5 amended: `free_bytes(alloc_bytes(n,t,a))` restores every bin's
`current_allocated` and keeps every bin's warm reserve within
`kWarmCellsPerBin`; the full state (total_allocated, partial lists, warm
cells, Cell Pool) may legitimately differ. -/
theorem C5_roundtrip_amended (st : Ctx) (size tag alignment p : Nat)
    (hwf : state_wf st)
    (hsucc : (alloc_bytes st size tag alignment).1 = some p) :
    ∀ j, j < kNumSizeBins →
      (get_bin (free_bytes (alloc_bytes st size tag alignment).2 (some p)) j).current_allocated
        = (get_bin st j).current_allocated ∧
      (get_bin (free_bytes (alloc_bytes st size tag alignment).2 (some p)) j).warm_cell_count
        ≤ kWarmCellsPerBin := by
  have hpair : alloc_bytes st size tag alignment =
      (some p, (alloc_bytes st size tag alignment).2) := by
    rw [← hsucc]
  rcases get_size_class_cases size alignment with hfull | hbin
  · obtain ⟨hal, hlt, hgh, hmap, hbins', hok, hres, hfree⟩ :=
      alloc_bytes_full_route hwf hfull hpair
    intro j hj
    rw [hfree]
    have hbeq : get_bin { (alloc_bytes st size tag alignment).2 with
        pool := pool_free (alloc_bytes st size tag alignment).2.pool p } j = get_bin st j := by
      unfold get_bin
      rw [show ({ (alloc_bytes st size tag alignment).2 with
        pool := pool_free (alloc_bytes st size tag alignment).2.pool p } : Ctx).bins =
        (alloc_bytes st size tag alignment).2.bins from rfl, hbins']
    rw [hbeq]
    exact ⟨rfl, ((hwf.2.2.2.1) j (List.mem_range.mpr hj)).2.1⟩
  · have htrip := alloc_bytes_bin_route hbin hpair
    obtain ⟨c, r₁, hal, hbd, hfind₁, hcls₁, hfc₁, hlt₁, hpmem, hpnin, hcstk, hwf₁, hok₁,
      hres₁, hbinne, hcur, hwarm⟩ := alloc_from_bin_spec hwf hbin htrip
    have hcur_lt : ∀ j, j < kNumSizeBins → (get_bin st j).current_allocated < W64 := by
      intro j hj
      exact ((hwf.2.2.2.1) j (List.mem_range.mpr hj)).2.2.2.1
    obtain ⟨_, hcr₁, hrw₁, _, _⟩ := hwf₁.2.2.2.2
    have hgh : get_header p = c := by
      obtain ⟨hle, hlt2, _⟩ := block_addrs_offset hbin hpmem
      rw [show p = c + (p - c) from by omega]
      exact get_header_add hal (by omega) (by omega)
    have hfb : free_bytes (alloc_bytes st size tag alignment).2 (some p)
        = free_to_bin (alloc_bytes st size tag alignment).2 p c := by
      simp only [free_bytes]
      rw [hgh, hfind₁]
      dsimp only
      rw [if_neg (by
        rw [hcls₁]
        have h255 : kFullCellMarker = 255 := rfl
        have h10 : kNumSizeBins = 10 := rfl
        omega)]
    rw [hfb]
    obtain ⟨hwf₂, hok₂, hres₂, hbinne₂, hcur₂⟩ :=
      free_to_bin_spec hwf₁ hfind₁ hcls₁ hbin hpmem hpnin hlt₁ hcstk
    intro j hj
    constructor
    · by_cases hjb : j = get_size_class size alignment
      · subst hjb
        rw [hcur₂, hcur]
        exact dec64_inc64 _ (hcur_lt _ hj)
      · rw [hbinne₂ j hjb, hbinne j hjb]
    · exact (hwf₂.2.2.2.1 j (List.mem_range.mpr hj)).2.1

/-- C5 witness. -/
theorem C5_roundtrip_amended_witness :
    (get_bin (free_bytes (alloc_bytes (mk_context true kSuperblockSize) 16 0 8).2
      (some 32)) 0).current_allocated
        = (get_bin (mk_context true kSuperblockSize) 0).current_allocated ∧
    (get_bin (free_bytes (alloc_bytes (mk_context true kSuperblockSize) 16 0 8).2
      (some 32)) 0).warm_cell_count ≤ kWarmCellsPerBin :=
  C5_roundtrip_amended (mk_context true kSuperblockSize) 16 0 8 32
    (by decide) (by decide) 0 (by decide)

/-- C6 counterexample: with a non-empty TLS cache for bin 0 holding block
999999, `alloc_from_bin` still acquires the bin mutex and returns a block
that is not the cached one — the per-thread cache is never consulted. -/
theorem C6_tls_cex :
    TlsBinCache.is_empty ⟨[999999], 1⟩ = false ∧
    (alloc_from_bin (mk_context true kSuperblockSize) 0 0).2.2 ≠ [] ∧
    (alloc_from_bin (mk_context true kSuperblockSize) 0 0).1 ≠ some 999999 ∧
    (alloc_from_bin (mk_context true kSuperblockSize) 0 0).1 ≠ none := by decide

/-- C6 amended: every `alloc_from_bin` call, for every bin (hot bins 0..3
included) and every cache state, acquires exactly the bin's mutex; the
`TlsBinCache` defined in `tls_bin_cache.h` is not consulted by any
allocation path. -/
theorem C6_lock_always (st : Ctx) (bin_index tag : Nat)
    (hbin : bin_index < kNumSizeBins) :
    (alloc_from_bin st bin_index tag).2.2 = [bin_index] :=
  alloc_from_bin_locks st bin_index tag

/-- C6 witness. -/
theorem C6_lock_always_witness :
    (alloc_from_bin (mk_context true kSuperblockSize) 0 0).2.2 = [0] :=
  C6_lock_always (mk_context true kSuperblockSize) 0 0 (by decide)

/-- C7: a zero-size request returns null and leaves the whole context
state untouched, on every context (inert ones included). -/
theorem C7_zero_size (st : Ctx) (tag alignment : Nat) :
    alloc_bytes st 0 tag alignment = (none, st) := by
  simp [alloc_bytes]

/-- C8: when the reservation fails at construction the context is
permanently inert — every `alloc_bytes`/`alloc_cell` returns null with no
state change, and `free_bytes`/`free_cell` are no-ops. -/
theorem C8_inert_context :
    (∀ reserve size tag alignment,
      alloc_bytes (mk_context false reserve) size tag alignment
        = (none, mk_context false reserve)) ∧
    (∀ reserve tag, alloc_cell (mk_context false reserve) tag
        = (none, mk_context false reserve)) ∧
    (∀ reserve p, free_bytes (mk_context false reserve) p = mk_context false reserve) ∧
    (∀ reserve c, free_cell (mk_context false reserve) c = mk_context false reserve) := by
  refine ⟨?_, ?_, ?_, ?_⟩
  · intro reserve size tag alignment
    simp [alloc_bytes, mk_context]
  · intro reserve tag
    simp [alloc_cell, mk_context]
  · intro reserve p
    rcases p with _ | a
    · rfl
    · simp [free_bytes, mk_context, find_cell]
  · intro reserve c
    simp [free_cell, mk_context]

/-- C9 counterexample: `alloc_bytes(2^64 - 1)` — a size far above 8 KiB —
wraps in the alignment round-up, is served from bin 0, and returns a
pointer that is not the base of its Cell. -/
theorem C9_overflow_cex :
    8192 < (2 ^ 64 - 1 : Nat) ∧
    (alloc_bytes (mk_context true kSuperblockSize) (2 ^ 64 - 1) 0 8).1 = some 32 ∧
    get_header 32 ≠ 32 := by decide

/-- C9 amended: for sizes above 8 KiB whose round-up does not overflow,
a successful `alloc_bytes` returns the base address of the allocated Cell
(`get_header p = p`), the header with `size_class = kFullCellMarker` lives
at that very address, and `free_bytes` classifies the pointer by reading
that field and pushes the Cell back onto the pool. -/
theorem C9_full_cell_amended (st : Ctx) (size tag k p : Nat)
    (hwf : state_wf st) (hsz : 8192 < size) (hk : k < 64)
    (hov : size + 2 ^ k ≤ W64)
    (hsucc : (alloc_bytes st size tag (2 ^ k)).1 = some p) :
    get_header p = p ∧
    ((find_cell (alloc_bytes st size tag (2 ^ k)).2.cells p).map CellRec.size_class
      = some kFullCellMarker) ∧
    free_bytes (alloc_bytes st size tag (2 ^ k)).2 (some p)
      = { (alloc_bytes st size tag (2 ^ k)).2 with
          pool := pool_free (alloc_bytes st size tag (2 ^ k)).2.pool p } := by
  have hfull : get_size_class size (2 ^ k) = kFullCellMarker := by
    apply get_size_class_full_of_large
    have := align_up_pow_ge size k hk hov
    omega
  have hpair : alloc_bytes st size tag (2 ^ k) =
      (some p, (alloc_bytes st size tag (2 ^ k)).2) := by
    rw [← hsucc]
  obtain ⟨hal, hlt, hgh, hmap, hbins', hok, hres, hfree⟩ :=
    alloc_bytes_full_route hwf hfull hpair
  exact ⟨hgh, hmap, hfree⟩

/-- C9 witness. -/
theorem C9_full_cell_amended_witness :
    get_header 0 = 0 ∧
    ((find_cell (alloc_bytes (mk_context true kSuperblockSize) 17408 0 (2 ^ 3)).2.cells 0).map
      CellRec.size_class = some kFullCellMarker) ∧
    free_bytes (alloc_bytes (mk_context true kSuperblockSize) 17408 0 (2 ^ 3)).2 (some 0)
      = { (alloc_bytes (mk_context true kSuperblockSize) 17408 0 (2 ^ 3)).2 with
          pool := pool_free
            (alloc_bytes (mk_context true kSuperblockSize) 17408 0 (2 ^ 3)).2.pool 0 } :=
  C9_full_cell_amended (mk_context true kSuperblockSize) 17408 0 3 0
    (by decide) (by decide) (by decide) (by decide) (by decide)

/-- C10: the bin invariant — every cell reachable from a bin's partial
list has that bin's `size_class`, a positive `free_count`, and a
`free_count` equal to the length of its in-cell free list — holds for a
freshly constructed context and is preserved (as part of the inductive
strengthening `state_wf`) by `alloc_from_bin`, by every valid
`free_to_bin`, and by `init_cell_for_bin` on a fresh cell. -/
theorem C10_bin_invariant :
    (∀ ok reserve, reserve ≤ W64 → state_wf (mk_context ok reserve)) ∧
    (∀ st, state_wf st → bins_invariant st) ∧
    (∀ st bin_index tag, state_wf st → bin_index < kNumSizeBins →
      state_wf (alloc_from_bin st bin_index tag).2.1) ∧
    (∀ st p h, state_wf st → valid_free st p h → state_wf (free_to_bin st p h)) ∧
    (∀ st c bin_index tag, state_wf st → bin_index < kNumSizeBins →
      c % kCellSize = 0 → c + kCellSize ≤ st.pool.cursor →
      (∀ i ∈ List.range kNumSizeBins, c ∉ (get_bin st i).partial_cells) →
      state_wf { st with cells := (init_cell_for_bin st.cells c bin_index tag).2 }) :=
  ⟨mk_context_wf,
   fun _ hwf => state_wf_bins_invariant hwf,
   fun _ _ tag hwf hb => alloc_from_bin_wf hwf tag hb,
   fun _ _ _ hwf hvf => free_to_bin_wf hwf hvf,
   fun _ _ _ tag hwf hb hal hcur hnp => init_cell_spec hwf hb hal hcur hnp⟩

/-- C10 witness: the five parts instantiated on concrete states (bin 9 has
one block per cell, keeping the states small). -/
theorem C10_bin_invariant_witness :
    state_wf (mk_context true kSuperblockSize) ∧
    bins_invariant (mk_context true kSuperblockSize) ∧
    state_wf (alloc_from_bin (mk_context true kSuperblockSize) 9 0).2.1 ∧
    state_wf (free_to_bin (alloc_from_bin (mk_context true kSuperblockSize) 9 0).2.1 32 0) ∧
    state_wf { (alloc_from_bin (mk_context true kSuperblockSize) 9 0).2.1 with
      cells := (init_cell_for_bin
        (alloc_from_bin (mk_context true kSuperblockSize) 9 0).2.1.cells 16384 0 0).2 } :=
  ⟨C10_bin_invariant.1 true kSuperblockSize (by decide),
   C10_bin_invariant.2.1 _ (C10_bin_invariant.1 true kSuperblockSize (by decide)),
   C10_bin_invariant.2.2.1 _ 9 0
     (C10_bin_invariant.1 true kSuperblockSize (by decide)) (by decide),
   C10_bin_invariant.2.2.2.1 _ 32 0
     (C10_bin_invariant.2.2.1 _ 9 0
       (C10_bin_invariant.1 true kSuperblockSize (by decide)) (by decide))
     (by decide),
   C10_bin_invariant.2.2.2.2 _ 16384 0 0
     (C10_bin_invariant.2.2.1 _ 9 0
       (C10_bin_invariant.1 true kSuperblockSize (by decide)) (by decide))
     (by decide) (by decide) (by decide) (by decide)⟩

end CellAlloc
